/-
  Verification of the numerical core of `kfac_jax/_src/utils/math.py`.

  The development shallowly embeds the Python source into Lean 4:
  * float values are modelled as real numbers (exact arithmetic),
  * JAX arrays are modelled by lists, `Matrix (Fin n) (Fin n) ℝ`, or
    row-major flat vectors `ℕ → ℝ` together with an explicit shape,
  * Python exceptions are modelled with `Except String`,
  * external JAX/numpy collaborators (the lobpcg and power-iteration
    2-norm estimators, and the dense symmetric eigensolvers) are taken
    as abstract function parameters, since they live outside this file.

  Definitions are translated from the source; definitions whose names
  start with `spec_` or `naive` transcribe the specification's words and
  are compared with the source-derived ones.
-/
import Mathlib

namespace KfacMath

/-! ## `block_permuted` (source lines 275-311)

`block_permuted(matrix, block_sizes, block_order)` splits a square matrix
into blocks and permutes whole blocks, in rows and columns.  Matrices are
modelled as lists of rows. -/

/-- `np.cumsum` of a list of naturals: running totals. -/
def cumsum (l : List ℕ) : List ℕ :=
  (l.foldl (fun (acc : List ℕ × ℕ) x => ((acc.2 + x) :: acc.1, acc.2 + x)) ([], 0)).1.reverse

/-- `jnp.split(xs, idxs)`: the pieces of `xs` between the consecutive
split indices `0 :: idxs` and `idxs ++ [xs.length]`. -/
def splitAtIndices (xs : List α) (idxs : List ℕ) : List (List α) :=
  (List.zip (0 :: idxs) (idxs ++ [xs.length])).map fun p => (xs.take p.2).drop p.1

/-- `jnp.split(matrix, idxs, axis=1)` on a list-of-rows matrix: split each
row at the indices and regroup into column blocks. -/
def splitCols (rows : List (List α)) (idxs : List ℕ) : List (List (List α)) :=
  let width := (rows.headD []).length
  (List.zip (0 :: idxs) (idxs ++ [width])).map fun p =>
    rows.map fun r => (r.take p.2).drop p.1

/-- `jnp.block` on a grid of blocks: concatenate each block-row
horizontally (row-wise `zipWith (· ++ ·)`), then stack vertically. -/
def blockJoin (grid : List (List (List (List α)))) : List (List α) :=
  (grid.map fun blockRow =>
    match blockRow with
    | [] => []
    | b :: bs => bs.foldl (fun acc blk => List.zipWith (· ++ ·) acc blk) b).flatten

/-- Source `block_permuted`: splits `matrix` into blocks of sizes
`block_sizes` and sends the `block_order[i]`-th block to slot `i`, in both
rows and columns.  Raises when the two argument lists have different
lengths; returns the input unchanged when the order is the identity. -/
def block_permuted (matrix : List (List α)) (block_sizes : List ℕ)
    (block_order : List ℕ) : Except String (List (List α)) :=
  if block_sizes.length ≠ block_order.length then
    .error "The length of `block_sizes` and `block_order` must be the same."
  else if block_order = List.range block_order.length then
    .ok matrix
  else
    let indices := (cumsum block_sizes).dropLast
    let blocks := (splitAtIndices matrix indices).map fun rowBlock =>
      splitCols rowBlock indices
    let reordered := block_order.map fun i =>
      block_order.map fun j => ((blocks.getD i []).getD j [])
    .ok (blockJoin reordered)

/-- C9: `block_permuted` on a 3×3 matrix with unit block sizes and block
order `[2,0,1]` sends `[[a,b,c],[d,e,f],[g,h,i]]` to
`[[i,g,h],[c,a,b],[f,d,e]]`. -/
theorem C9_block_permuted_3x3 (x11 x12 x13 x21 x22 x23 x31 x32 x33 : ℚ) :
    block_permuted [[x11, x12, x13], [x21, x22, x23], [x31, x32, x33]]
        [1, 1, 1] [2, 0, 1]
      = .ok [[x33, x31, x32], [x13, x11, x12], [x23, x21, x22]] := by
  rfl

/-! ## Robust eigendecomposition (source lines 707-770)

Floating-point values are modelled as `Option ℝ`: `none` stands for NaN,
`some r` for the finite value `r` (infinities play no role in these
claims).  A `d × d` input matrix is `Fin d → Fin d → Option ℝ`.  The two
dense symmetric eigensolvers — `jnp.linalg.eigh` (possibly on an
accelerator) and the host-side `np.linalg.eigh` reached through
`jax.pure_callback` — are external collaborators, so they enter the
embedding as abstract function parameters returning an
(eigenvalues, eigenvectors) pair. -/

/-- The type of an external dense symmetric eigensolver on `d × d`
matrices: it returns an (eigenvalues, eigenvectors) pair. -/
def EighFn (d : ℕ) :=
  (Fin d → Fin d → Option ℝ) → ((Fin d → Option ℝ) × (Fin d → Fin d → Option ℝ))

/-- `jnp.any(jnp.isnan(s))` for a vector. -/
def hasNaNVec {d : ℕ} (s : Fin d → Option ℝ) : Bool :=
  (List.finRange d).any fun i => (s i).isNone

/-- `jnp.any(jnp.isnan(x))` for a matrix. -/
def hasNaNMat {d : ℕ} (x : Fin d → Fin d → Option ℝ) : Bool :=
  (List.finRange d).any fun i => (List.finRange d).any fun j => (x i j).isNone

/-- Source `_host_eigh`: dispatch to the host CPU eigensolver. -/
def host_eigh {d : ℕ} (host : EighFn d) (x : Fin d → Fin d → Option ℝ) :
    (Fin d → Option ℝ) × (Fin d → Fin d → Option ℝ) :=
  host x

/-- Source `_eigh`: run on the host when forced; otherwise run the
(accelerator) solver and fall back to the host whenever the returned
eigenvalues contain a NaN. -/
def eigh_dispatch {d : ℕ} (accel host : EighFn d) (x : Fin d → Fin d → Option ℝ)
    (force_on_host : Bool) :
    (Fin d → Option ℝ) × (Fin d → Fin d → Option ℝ) :=
  if force_on_host then host_eigh host x
  else
    let sq := accel x
    if hasNaNVec sq.1 then host_eigh host x else sq

/-- `jnp.clip (· , a_min := 0)` on one entry; clipping a NaN gives NaN. -/
def clipNonneg : Option ℝ → Option ℝ
  | none => none
  | some r => some (max r 0)

/-- Source `safe_psd_eigh`: short-circuit to all-NaN outputs when the
input contains a NaN, otherwise decompose via `_eigh`; finally clip the
eigenvalues at zero. -/
def safe_psd_eigh {d : ℕ} (accel host : EighFn d) (x : Fin d → Fin d → Option ℝ)
    (force_on_host : Bool) :
    (Fin d → Option ℝ) × (Fin d → Fin d → Option ℝ) :=
  let sq :=
    if hasNaNMat x then ((fun _ => none), (fun _ _ => none))
    else eigh_dispatch accel host x force_on_host
  (fun i => clipNonneg (sq.1 i), sq.2)

/-- C5: on an input containing a NaN entry, `safe_psd_eigh` returns the
all-NaN eigenvalue vector (shape `(d,)`) and all-NaN eigenvector matrix
(shape `(d, d)`), for every choice of the two external eigensolvers — in
particular the result never depends on (hence never invokes) them — and
without raising. -/
theorem C5_safe_psd_eigh_nan_short_circuit {d : ℕ} (accel host : EighFn d)
    (x : Fin d → Fin d → Option ℝ) (force_on_host : Bool)
    (h : hasNaNMat x = true) :
    safe_psd_eigh accel host x force_on_host
      = ((fun _ => none), (fun _ _ => none)) := by
  unfold safe_psd_eigh
  rw [h]
  rfl

/-- Witness for C5 at a concrete all-NaN 2×2 input and concrete solvers. -/
theorem C5_witness :
    hasNaNMat (fun (_ _ : Fin 2) => (none : Option ℝ)) = true ∧
    safe_psd_eigh (fun _ => ((fun _ => some 1), (fun _ _ => some 1)))
        (fun _ => ((fun _ => some 2), (fun _ _ => some 2)))
        (fun (_ _ : Fin 2) => (none : Option ℝ)) false
      = ((fun _ => none), (fun _ _ => none)) :=
  ⟨rfl, C5_safe_psd_eigh_nan_short_circuit _ _ _ _ rfl⟩

/-- `hasNaNVec s = false` means every entry is an actual number. -/
theorem hasNaNVec_false_forall {d : ℕ} {s : Fin d → Option ℝ}
    (h : hasNaNVec s = false) (i : Fin d) : ∃ r : ℝ, s i = some r := by
  have hmem := List.any_eq_false.mp h i (List.mem_finRange i)
  cases hsi : s i with
  | none => rw [hsi] at hmem; simp at hmem
  | some r => exact ⟨r, rfl⟩

/-- C6: on a NaN-free input, provided the host eigensolver produces
NaN-free eigenvalues on it, every eigenvalue returned by `safe_psd_eigh`
is an actual number `≥ 0` — negative solver outputs are clipped — both on
the accelerator path (with its NaN fallback) and on the host path. -/
theorem C6_safe_psd_eigh_clips_nonneg {d : ℕ} (accel host : EighFn d)
    (x : Fin d → Fin d → Option ℝ) (force_on_host : Bool)
    (hx : hasNaNMat x = false) (hhost : hasNaNVec (host x).1 = false) :
    ∀ i : Fin d, ∃ r : ℝ, 0 ≤ r ∧
      (safe_psd_eigh accel host x force_on_host).1 i = some r := by
  intro i
  unfold safe_psd_eigh eigh_dispatch host_eigh
  rw [hx]
  simp only [Bool.false_eq_true, if_false]
  cases force_on_host with
  | true =>
    obtain ⟨r, hr⟩ := hasNaNVec_false_forall hhost i
    exact ⟨max r 0, le_max_right r 0, by simp [hr, clipNonneg]⟩
  | false =>
    cases haccel : hasNaNVec (accel x).1 with
    | true =>
      obtain ⟨r, hr⟩ := hasNaNVec_false_forall hhost i
      exact ⟨max r 0, le_max_right r 0, by simp [haccel, hr, clipNonneg]⟩
    | false =>
      obtain ⟨r, hr⟩ := hasNaNVec_false_forall haccel i
      exact ⟨max r 0, le_max_right r 0, by simp [haccel, hr, clipNonneg]⟩

/-- Witness for C6: a 1×1 numeric input with a host solver that returns
the (negative) eigenvalue `-1`; the returned eigenvalue is clipped. -/
theorem C6_witness :
    hasNaNMat (fun (_ _ : Fin 1) => (some 1 : Option ℝ)) = false ∧
    hasNaNVec ((fun (_ : Fin 1) => (some (-1) : Option ℝ))) = false ∧
    ∀ i : Fin 1, ∃ r : ℝ, 0 ≤ r ∧
      (safe_psd_eigh (fun _ => ((fun _ => none), (fun _ _ => some 0)))
        (fun _ => ((fun _ => some (-1)), (fun _ _ => some 0)))
        (fun _ _ => some 1) false).1 i = some r :=
  ⟨rfl, rfl,
    C6_safe_psd_eigh_clips_nonneg _ _ _ _ rfl rfl⟩

/-! ## `loop_and_parallelize_average` (source lines 773-881)

The batch of arguments is modelled as a `List α` (the common leading axis
enumerates the list) and the per-example function as `f : α → ℝ`; a
nested-tensor output is averaged leaf-wise and entry-wise, so the scalar
projection captures the computation.  `jnp.mean(jax.vmap f, axis 0)` on a
chunk is the chunk's list mean.  `singleton_size` — in the source the
element count of `f`'s output, obtained by an abstract shape trace — is
kept as an explicit parameter. -/

/-- `jnp.mean(jax.vmap(f)(*chunk), axis=0)`: the mean of `f` over a
chunk. -/
noncomputable def chunkMean (f : α → ℝ) (xs : List α) : ℝ :=
  (xs.map f).sum / xs.length

/-- The reshape of the loop arguments to `(num_chunks, parallel_size)`:
`n` successive chunks of `p` elements each. -/
def chunkListN (p : ℕ) : ℕ → List α → List (List α)
  | 0, _ => []
  | n + 1, xs => xs.take p :: chunkListN p n (xs.drop p)

/-- The `parallel_size` computation of `average_func`: the whole batch if
the output footprint fits the budget (or there is no budget), otherwise
`max(min(max_parallel_size // singleton_size, leading_size), 1)`. -/
def parallel_size_calc (singleton_size leading_size : ℕ) :
    Option ℕ → ℕ
  | none => leading_size
  | some mps =>
    if singleton_size * leading_size ≤ mps then leading_size
    else max (min (mps / singleton_size) leading_size) 1

/-- The `averaged_value` computation of `average_func`: one vectorized
mean when there is a single chunk, otherwise the `jax.lax.scan` loop
accumulating per-chunk means, divided by the number of chunks. -/
noncomputable def averaged_value_calc (f : α → ℝ) (p q : ℕ)
    (loop_args : List α) : ℝ :=
  if q = 1 then chunkMean f loop_args
  else ((chunkListN p q loop_args).map (chunkMean f)).sum / q

/-- Source `average_func` (the closure returned by
`loop_and_parallelize_average`): errors on an empty argument tree,
otherwise splits the leading axis into `leading_size // parallel_size`
chunks plus a remainder, averages the chunks (and the remainder) by
vectorized means, and combines the two averages weighted by their share
of the batch. -/
noncomputable def average_func (f : α → ℝ) (singleton_size : ℕ)
    (max_parallel_size : Option ℕ) (args : List α) : Except String ℝ :=
  if args.isEmpty then
    .error "You must pass in at least one argument with a PyTree leaf node."
  else
    let leading_size := args.length
    let parallel_size := parallel_size_calc singleton_size leading_size max_parallel_size
    let num_parallel_chunks := leading_size / parallel_size
    let remainder_size := leading_size % parallel_size
    let all_chunks_size := leading_size - remainder_size
    let averaged_value :=
      averaged_value_calc f parallel_size num_parallel_chunks (args.take all_chunks_size)
    if remainder_size = 0 then .ok averaged_value
    else
      let remainder_value := chunkMean f (args.drop all_chunks_size)
      let avg_weight : ℝ := (all_chunks_size : ℝ) / (leading_size : ℝ)
      let remainder_weight : ℝ := (remainder_size : ℝ) / (leading_size : ℝ)
      .ok (avg_weight * averaged_value + remainder_weight * remainder_value)

/-- The unchunked reference computation from the specification:
`jnp.mean(jax.vmap(f)(*args), axis=0)` over the whole batch. -/
noncomputable def naive_batch_mean (f : α → ℝ) (args : List α) : ℝ :=
  (args.map f).sum / args.length

theorem parallel_size_calc_pos (s L : ℕ) (hL : 0 < L) (mps : Option ℕ) :
    0 < parallel_size_calc s L mps := by
  cases mps with
  | none => exact hL
  | some m =>
    simp only [parallel_size_calc]
    split
    · exact hL
    · exact lt_of_lt_of_le one_pos (le_max_right _ _)

theorem parallel_size_calc_le (s L : ℕ) (hL : 0 < L) (mps : Option ℕ) :
    parallel_size_calc s L mps ≤ L := by
  cases mps with
  | none => exact le_rfl
  | some m =>
    simp only [parallel_size_calc]
    split
    · exact le_rfl
    · exact max_le (min_le_right _ _) hL

/-- Summing the per-chunk means over the reshaped loop arguments gives
the total sum divided by the chunk size. -/
theorem chunkListN_map_chunkMean_sum (f : α → ℝ) (p : ℕ) (_hp : 0 < p) :
    ∀ (n : ℕ) (xs : List α), xs.length = n * p →
      ((chunkListN p n xs).map (chunkMean f)).sum = (xs.map f).sum / p := by
  intro n
  induction n with
  | zero =>
    intro xs hxs
    rw [Nat.zero_mul] at hxs
    rw [List.length_eq_zero.mp hxs]
    simp [chunkListN]
  | succ n ih =>
    intro xs hxs
    have hple : p ≤ xs.length := by
      rw [hxs, Nat.succ_mul]; exact Nat.le_add_left p (n * p)
    have htake : (xs.take p).length = p := by
      rw [List.length_take]; exact Nat.min_eq_left hple
    have hdrop : (xs.drop p).length = n * p := by
      rw [List.length_drop, hxs, Nat.succ_mul, Nat.add_sub_cancel]
    have hsum : (xs.map f).sum = ((xs.take p).map f).sum + ((xs.drop p).map f).sum := by
      conv_lhs => rw [← List.take_append_drop p xs]
      rw [List.map_append, List.sum_append]
    simp only [chunkListN, List.map_cons, List.sum_cons, ih (xs.drop p) hdrop,
      chunkMean, htake, hsum]
    ring

/-- The averaged value over the full chunks is the mean of `f` over the
first `q * p` examples. -/
theorem averaged_value_calc_eq (f : α → ℝ) (p q : ℕ) (hp : 0 < p) (hq : 0 < q)
    (xs : List α) (hlen : xs.length = q * p) :
    averaged_value_calc f p q xs = (xs.map f).sum / ((q : ℝ) * (p : ℝ)) := by
  unfold averaged_value_calc
  by_cases h1 : q = 1
  · subst h1
    rw [if_pos rfl, chunkMean, hlen]
    push_cast
    rw [one_mul]
  · rw [if_neg h1, chunkListN_map_chunkMean_sum f p hp q xs hlen, div_div]
    rw [mul_comm (p : ℝ) (q : ℝ)]

/-- Combining two partial averages weighted by their shares reproduces
the overall average. -/
theorem weight_combine (a r l s1 s2 : ℝ) (ha : a ≠ 0) (hr : r ≠ 0) :
    a / l * (s1 / a) + r / l * (s2 / r) = (s1 + s2) / l := by
  rw [div_mul_div_comm, div_mul_div_comm, mul_comm l a, mul_comm l r,
    mul_div_mul_left s1 l ha, mul_div_mul_left s2 l hr, div_add_div_same]

/-- C3: for every per-example function, every `max_parallel_size`
(including `None`, values dividing the batch size and values leaving a
remainder) and every per-example output footprint, the chunked average
returned by `average_func` equals the unchunked reference
`jnp.mean(jax.vmap(f)(*args), axis=0)`: the weighted combination of the
chunked average and the remainder average reproduces the exact mean over
all examples. -/
theorem C3_average_func_eq_naive_mean (f : α → ℝ) (singleton_size : ℕ)
    (max_parallel_size : Option ℕ) (args : List α) (h : args ≠ []) :
    average_func f singleton_size max_parallel_size args
      = .ok (naive_batch_mean f args) := by
  have hL : 0 < args.length := List.length_pos.mpr h
  set L := args.length with hdefL
  set p := parallel_size_calc singleton_size L max_parallel_size with hdefp
  have hp : 0 < p := parallel_size_calc_pos _ _ hL _
  have hpL : p ≤ L := parallel_size_calc_le _ _ hL _
  have hq : 0 < L / p := Nat.div_pos hpL hp
  have hac : L - L % p = L / p * p := by
    have h1 : p * (L / p) + L % p = L := Nat.div_add_mod L p
    have h2 : p * (L / p) = L / p * p := Nat.mul_comm p (L / p)
    omega
  have hacle : L - L % p ≤ L := Nat.sub_le _ _
  have htake : (args.take (L - L % p)).length = L - L % p := by
    rw [List.length_take]; exact Nat.min_eq_left hacle
  have havg := averaged_value_calc_eq f p (L / p) hp hq (args.take (L - L % p))
    (by rw [htake, hac])
  unfold average_func
  rw [if_neg (by simpa [List.isEmpty_iff] using h)]
  simp only [← hdefL, ← hdefp]
  by_cases hrem : L % p = 0
  · rw [if_pos hrem, havg, hrem, Nat.sub_zero, hdefL, List.take_length]
    unfold naive_batch_mean
    have hLp : args.length / p * p = args.length :=
      Nat.div_mul_cancel (Nat.dvd_of_mod_eq_zero (hdefL ▸ hrem))
    rw [← Nat.cast_mul, hLp]
  · rw [if_neg hrem]
    have hmodle : L % p ≤ L := Nat.mod_le L p
    have hdrop : (args.drop (L - L % p)).length = L % p := by
      rw [List.length_drop, ← hdefL]
      omega
    have hsplit : ((args.take (L - L % p)).map f).sum
        + ((args.drop (L - L % p)).map f).sum = (args.map f).sum := by
      conv_rhs => rw [← List.take_append_drop (L - L % p) args]
      rw [List.map_append, List.sum_append]
    rw [havg, chunkMean, hdrop]
    unfold naive_batch_mean
    rw [← Nat.cast_mul, ← hac, ← hdefL, ← hsplit]
    have hacpos : 0 < L - L % p := by
      rw [hac]; exact Nat.mul_pos hq hp
    have hr0 : ((L % p : ℕ) : ℝ) ≠ 0 := Nat.cast_ne_zero.mpr hrem
    have hac0 : ((L - L % p : ℕ) : ℝ) ≠ 0 :=
      Nat.cast_ne_zero.mpr (by omega)
    rw [weight_combine _ _ _ _ _ hac0 hr0]

/-- Witness for C3 at a concrete batch of size 3 with a budget that
forces chunk size 2 plus a remainder of 1. -/
theorem C3_witness :
    ([1, 2, 3] : List ℕ) ≠ [] ∧
    average_func (fun n : ℕ => (n : ℝ)) 1 (some 2) [1, 2, 3]
      = .ok (naive_batch_mean (fun n : ℕ => (n : ℝ)) [1, 2, 3]) :=
  ⟨by simp, C3_average_func_eq_naive_mean _ _ _ _ (by simp)⟩

/-! ## Factors, `psd_matrix_norm` (source lines 332-441)

A Kronecker factor is a 2D square matrix, a 1D vector (the diagonal of a
matrix), or a 0D scalar (a 1×1 matrix).  The external 2-norm estimators
(`jax.experimental.sparse.linalg.lobpcg_standard`, seeded by a PRNG key,
and `optax.power_iteration`) are abstract parameters. -/

/-- A factor array: 0D scalar, 1D diagonal vector, or 2D square matrix. -/
inductive Factor where
  | scalar (x : ℝ)
  | diag (v : List ℝ)
  | dense (n : ℕ) (m : Matrix (Fin n) (Fin n) ℝ)

/-- `a.size`: the total element count of the array. -/
def Factor.size : Factor → ℕ
  | .scalar _ => 1
  | .diag v => v.length
  | .dense n _ => n * n

/-- `a.shape`. -/
def Factor.shape : Factor → List ℕ
  | .scalar _ => []
  | .diag v => [v.length]
  | .dense n _ => [n, n]

/-- The dimension of the square matrix a factor represents. -/
def Factor.matDim : Factor → ℕ
  | .scalar _ => 1
  | .diag v => v.length
  | .dense n _ => n

/-- Elementwise division of an array by a scalar. -/
noncomputable def Factor.divScalar : Factor → ℝ → Factor
  | .scalar x, c => .scalar (x / c)
  | .diag v, c => .diag (v.map (· / c))
  | .dense n m, c => .dense n (Matrix.of fun i j => m i j / c)

/-- `jnp.ones_like`. -/
def Factor.onesLike : Factor → Factor
  | .scalar _ => .scalar 1
  | .diag v => .diag (v.map fun _ => 1)
  | .dense n _ => .dense n (Matrix.of fun _ _ => 1)

/-- `jnp.max` over a (nonempty) vector; an empty vector is given the
junk value 0 (where `jnp.max` would raise). -/
def listMaxD : List ℝ → ℝ
  | [] => 0
  | x :: xs => xs.foldl max x

/-- The external lobpcg 2-norm estimator: a function of the matrix and
of the PRNG seed used to draw its initial vector. -/
def LobpcgFn := (n : ℕ) → Matrix (Fin n) (Fin n) ℝ → ℕ → ℝ

/-- The external power-iteration 2-norm estimator. -/
def PowerIterFn := (n : ℕ) → Matrix (Fin n) (Fin n) ℝ → ℝ

/-- Source `psd_matrix_norm`: one of four matrix norms of a PSD factor.
The `rng_key` is only consulted on the 2-norm lobpcg path, where a
missing key defaults to the fixed `jax.random.PRNGKey(123)`. -/
noncomputable def psd_matrix_norm (lob : LobpcgFn) (pow : PowerIterFn)
    (matrix : Factor) (norm_type method_2norm : String) (rng_key : Option ℕ) :
    Except String ℝ :=
  if norm_type = "2_norm" then
    match matrix with
    | .scalar x => .ok x
    | .diag v => .ok (listMaxD v)
    | .dense n m =>
      if method_2norm = "lobpcg" then
        .ok (lob n m (rng_key.getD 123))
      else if method_2norm = "power_iteration" then
        .ok (pow n m)
      else .error "Unrecognized method string"
  else if norm_type = "avg_trace" then
    match matrix with
    | .scalar x => .ok x
    | .diag v => .ok (v.sum / v.length)
    | .dense n m => .ok (Matrix.trace m / n)
  else if norm_type = "1_norm" then
    match matrix with
    | .scalar x => .ok x
    | .diag v => .ok (listMaxD v)
    | .dense n m => .ok (listMaxD ((List.finRange n).map fun j => ∑ i, |m i j|))
  else if norm_type = "avg_fro" then
    match matrix with
    | .scalar x => .ok x
    | .diag v => .ok (Real.sqrt (v.map (· ^ 2)).sum / Real.sqrt v.length)
    | .dense n m => .ok (Real.sqrt (∑ i, ∑ j, m i j ^ 2) / Real.sqrt n)
  else .error "Unrecognized norm type"

/-- The specification's "avg_trace" norm: the scalar itself, the mean of
the diagonal, or `trace/dimension`. -/
noncomputable def avg_trace_norm : Factor → ℝ
  | .scalar x => x
  | .diag v => v.sum / v.length
  | .dense n m => Matrix.trace m / n

/-- On every factor, `psd_matrix_norm` with `norm_type="avg_trace"`
succeeds with the average-trace value, whatever the estimators, method
string and seed. -/
theorem psd_matrix_norm_avg_trace (lob : LobpcgFn) (pow : PowerIterFn)
    (a : Factor) (method_2norm : String) (rng_key : Option ℕ) :
    psd_matrix_norm lob pow a "avg_trace" method_2norm rng_key
      = .ok (avg_trace_norm a) := by
  cases a <;> rfl

/-! ## `pi_adjusted_kronecker_inverse` (source lines 332-341, 444-551) -/

/-- Source `psd_inv_cholesky`: the (Cholesky-based, `assume_a="pos"`)
solve of `(matrix + damping·I) X = I`, i.e. the inverse of the damped
matrix. -/
noncomputable def psd_inv_cholesky (n : ℕ) (m : Matrix (Fin n) (Fin n) ℝ)
    (damping : ℝ) : Matrix (Fin n) (Fin n) ℝ :=
  (m + damping • (1 : Matrix (Fin n) (Fin n) ℝ))⁻¹

/-- Source `regular_inverse` (the closure inside
`pi_adjusted_kronecker_inverse`): `arrays` are the raw factors, `us` the
normalized ones, `c` the product of the norms. -/
noncomputable def regular_inverse (arrays us : List Factor) (c damping : ℝ) :
    List Factor :=
  let non_scalars := (arrays.filter fun a => a.size != 1).length
  -- We distribute the overall scale over each factor, including scalars
  let c_k :=
    if non_scalars = 0 then (c + damping) ^ ((1 : ℝ) / (arrays.length : ℝ))
    else c ^ ((1 : ℝ) / (arrays.length : ℝ))
  -- (in the source `d_hat` is only assigned when `non_scalars > 0`, and
  -- it is only ever read in that case)
  let d_hat := (damping / c) ^ ((1 : ℝ) / (non_scalars : ℝ))
  us.map fun u =>
    (if u.size = 1 then u.onesLike  -- damping not used in the scalar factors
     else
       match u with
       | .dense n m => .dense n (psd_inv_cholesky n m d_hat)
       | .diag v => .diag (v.map fun x => 1 / (x + d_hat))
       | .scalar _ => u.onesLike  -- unreachable: scalars have size 1
    ).divScalar c_k

/-- Source `zero_inverse`: every replacement factor is
`I / damping^(1/k)` (identity for 2D factors, all-ones otherwise). -/
noncomputable def zero_inverse (us : List Factor) (k : ℕ) (damping : ℝ) :
    List Factor :=
  let c_k := damping ^ ((1 : ℝ) / (k : ℝ))
  us.map fun u =>
    (match u with
     | .dense n _ => Factor.dense n (1 : Matrix (Fin n) (Fin n) ℝ)
     | _ => u.onesLike
    ).divScalar c_k

/-- Source `pi_adjusted_kronecker_inverse`.  `special_case_zero_inv`
models the process-wide `_SPECIAL_CASE_ZERO_INV` flag; the norms are
computed through `psd_matrix_norm` with `norm_type="avg_trace"` (the
`.toOption.getD 0` unwrapping is dead code: by
`psd_matrix_norm_avg_trace` that call always succeeds). -/
noncomputable def pi_adjusted_kronecker_inverse (lob : LobpcgFn)
    (pow : PowerIterFn) (special_case_zero_inv : Bool)
    (arrays : List Factor) (damping : ℝ) : List Factor :=
  let norms := arrays.map fun a =>
    ((psd_matrix_norm lob pow a "avg_trace" "lobpcg" none).toOption).getD 0
  -- the normalized factors u_i, such that Trace(u_i) / dim(u_i) = 1
  let us := List.zipWith (fun a n => a.divScalar n) arrays norms
  -- kron(arrays) = c * kron(us)
  let c := norms.prod
  if special_case_zero_inv then
    if 0 < c then regular_inverse arrays us c damping
    else zero_inverse us arrays.length damping
  else regular_inverse arrays us c damping

/-- C8 counterexample: `pi_adjusted_kronecker_inverse` does not perform
any seeded iterative estimation — its result is identical under two
different (constant 5 vs constant 7) external 2-norm estimators, so no
optional seed parameter could influence it, contradicting the claim that
it "accepts an optional pseudo-random seed parameter for its iterative
estimation". -/
theorem C8_counterexample_pi_inverse_has_no_seed :
    pi_adjusted_kronecker_inverse (fun _ _ _ => 5) (fun _ _ => 5) true
        [Factor.scalar 2] 1
      = pi_adjusted_kronecker_inverse (fun _ _ _ => 7) (fun _ _ => 7) true
        [Factor.scalar 2] 1 := by
  rfl

/-- C8 (amended): `psd_matrix_norm` accepts an optional seed and a
seedless call coincides with a call seeded by the fixed default key
(123), hence is reproducible; `pi_adjusted_kronecker_inverse` takes no
seed and never consults the seeded estimators (it uses `avg_trace`
norms), so two calls on the same inputs agree — whatever the external
estimators are. -/
theorem C8_amended_default_seed_reproducible :
    (∀ (lob : LobpcgFn) (pow : PowerIterFn) (m : Factor)
        (norm_type method_2norm : String),
      psd_matrix_norm lob pow m norm_type method_2norm none
        = psd_matrix_norm lob pow m norm_type method_2norm (some 123)) ∧
    (∀ (lob lob' : LobpcgFn) (pow pow' : PowerIterFn) (special : Bool)
        (arrays : List Factor) (damping : ℝ),
      pi_adjusted_kronecker_inverse lob pow special arrays damping
        = pi_adjusted_kronecker_inverse lob' pow' special arrays damping) := by
  constructor
  · intro lob pow m norm_type method_2norm
    rfl
  · intro lob lob' pow pow' special arrays damping
    rfl

/-! ### Specification-side description of the regular branch (C1, C10)

The following definitions transcribe the specification's wording for the
regular branch; the theorems below compare them with the source-derived
`pi_adjusted_kronecker_inverse`. -/

/-- The coefficient `c`: the product of the factors' avg_trace norms. -/
noncomputable def spec_c (arrays : List Factor) : ℝ :=
  (arrays.map avg_trace_norm).prod

/-- The normalized factors `u_i = a_i / n_i`. -/
noncomputable def spec_us (arrays : List Factor) : List Factor :=
  arrays.map fun a => a.divScalar (avg_trace_norm a)

/-- `m`: the count of factors whose total element count is not 1. -/
def spec_nonscalar_count (arrays : List Factor) : ℕ :=
  (arrays.filter fun a => a.size != 1).length

/-- `c_k`: `(c + damping)^(1/k)` when all factors are scalar, else
`c^(1/k)`. -/
noncomputable def spec_ck (arrays : List Factor) (damping : ℝ) : ℝ :=
  if spec_nonscalar_count arrays = 0 then
    (spec_c arrays + damping) ^ ((1 : ℝ) / (arrays.length : ℝ))
  else spec_c arrays ^ ((1 : ℝ) / (arrays.length : ℝ))

/-- `d_hat = (damping / c)^(1/m)`: the damping distributed across the
`m` non-scalar factors. -/
noncomputable def spec_dhat (arrays : List Factor) (damping : ℝ) : ℝ :=
  (damping / spec_c arrays) ^ ((1 : ℝ) / (spec_nonscalar_count arrays : ℝ))

/-- The claimed inversion of one normalized factor in the `m > 0` case:
ones for size-1 factors (no damping), a damped positive-definite solve
for 2D factors, elementwise `1/(u + d_hat)` for 1D factors — then
divided by `c_k`. -/
noncomputable def spec_regular_factor (dhat ck : ℝ) (u : Factor) : Factor :=
  (if u.size = 1 then u.onesLike
   else
     match u with
     | .dense n m => Factor.dense n (psd_inv_cholesky n m dhat)
     | .diag v => Factor.diag (v.map fun x => 1 / (x + dhat))
     | .scalar _ => u.onesLike).divScalar ck

/-- The claimed value of the whole regular branch. -/
noncomputable def spec_regular_result (arrays : List Factor) (damping : ℝ) :
    List Factor :=
  if spec_nonscalar_count arrays = 0 then
    (spec_us arrays).map fun u => u.onesLike.divScalar (spec_ck arrays damping)
  else
    (spec_us arrays).map fun u =>
      spec_regular_factor (spec_dhat arrays damping) (spec_ck arrays damping) u

theorem Factor.size_divScalar (u : Factor) (c : ℝ) :
    (u.divScalar c).size = u.size := by
  cases u <;> simp [Factor.divScalar, Factor.size]

theorem Factor.shape_divScalar (u : Factor) (c : ℝ) :
    (u.divScalar c).shape = u.shape := by
  cases u <;> simp [Factor.divScalar, Factor.shape]

theorem Factor.shape_onesLike (u : Factor) : u.onesLike.shape = u.shape := by
  cases u <;> simp [Factor.onesLike, Factor.shape]

theorem Factor.matDim_divScalar (u : Factor) (c : ℝ) :
    (u.divScalar c).matDim = u.matDim := by
  cases u <;> simp [Factor.divScalar, Factor.matDim]

theorem Factor.onesLike_divScalar (u : Factor) (c : ℝ) :
    (u.divScalar c).onesLike = u.onesLike := by
  cases u <;> simp [Factor.divScalar, Factor.onesLike, List.map_map,
    Function.comp_def]

theorem zipWith_map_self (f : α → β → γ) (g : α → β) :
    ∀ l : List α, List.zipWith f l (l.map g) = l.map fun a => f a (g a) := by
  intro l
  induction l with
  | nil => rfl
  | cons a l ih => simp [ih]

/-- The norms computed inside `pi_adjusted_kronecker_inverse` are the
avg_trace norms, whatever the external estimators. -/
theorem pi_norms_eq (lob : LobpcgFn) (pow : PowerIterFn) (arrays : List Factor) :
    (arrays.map fun a =>
        ((psd_matrix_norm lob pow a "avg_trace" "lobpcg" none).toOption).getD 0)
      = arrays.map avg_trace_norm := by
  apply List.map_congr_left
  intro a _
  rw [psd_matrix_norm_avg_trace]
  rfl

/-- `pi_adjusted_kronecker_inverse` written through the spec-side `c`
and `us`. -/
theorem pi_adjusted_eq_branches (lob : LobpcgFn) (pow : PowerIterFn)
    (special : Bool) (arrays : List Factor) (damping : ℝ) :
    pi_adjusted_kronecker_inverse lob pow special arrays damping
      = if special then
          (if 0 < spec_c arrays then
            regular_inverse arrays (spec_us arrays) (spec_c arrays) damping
          else zero_inverse (spec_us arrays) arrays.length damping)
        else regular_inverse arrays (spec_us arrays) (spec_c arrays) damping := by
  simp only [pi_adjusted_kronecker_inverse, pi_norms_eq, zipWith_map_self,
    spec_c, spec_us]

/-- The source regular branch computes exactly the claimed value. -/
theorem regular_inverse_eq_spec (arrays : List Factor) (damping : ℝ) :
    regular_inverse arrays (spec_us arrays) (spec_c arrays) damping
      = spec_regular_result arrays damping := by
  by_cases hm : spec_nonscalar_count arrays = 0
  · have hm' : (List.filter (fun a => a.size != 1) arrays).length = 0 := hm
    have hall : ∀ a ∈ arrays, a.size = 1 := by
      intro a hmem
      have := List.filter_eq_nil_iff.mp (List.length_eq_zero.mp hm') a hmem
      simpa using this
    unfold spec_regular_result
    rw [if_pos hm]
    simp only [regular_inverse]
    apply List.map_congr_left
    intro u hu
    have hu' := hu
    unfold spec_us at hu'
    obtain ⟨a, ha, rfl⟩ := List.mem_map.mp hu'
    rw [if_pos (by rw [Factor.size_divScalar]; exact hall a ha)]
    rfl
  · unfold spec_regular_result
    rw [if_neg hm]
    rfl

/-- Under the regular-branch condition (flag disabled, or `c > 0`),
`pi_adjusted_kronecker_inverse` returns the claimed regular value. -/
theorem pi_adjusted_regular (lob : LobpcgFn) (pow : PowerIterFn)
    (special : Bool) (arrays : List Factor) (damping : ℝ)
    (hbranch : special = false ∨ 0 < spec_c arrays) :
    pi_adjusted_kronecker_inverse lob pow special arrays damping
      = spec_regular_result arrays damping := by
  rw [pi_adjusted_eq_branches]
  cases special with
  | false => rw [if_neg (by simp), regular_inverse_eq_spec]
  | true =>
    have hc : 0 < spec_c arrays := hbranch.resolve_left (by simp)
    rw [if_pos rfl, if_pos hc, regular_inverse_eq_spec]

theorem spec_regular_result_length (arrays : List Factor) (damping : ℝ) :
    (spec_regular_result arrays damping).length = arrays.length := by
  unfold spec_regular_result
  split <;> simp [spec_us]

/-- The per-factor regular inversion preserves the factor's shape. -/
theorem spec_regular_factor_shape (dhat ck : ℝ) (u : Factor) :
    (spec_regular_factor dhat ck u).shape = u.shape := by
  unfold spec_regular_factor
  rw [Factor.shape_divScalar]
  by_cases h : u.size = 1
  · rw [if_pos h, Factor.shape_onesLike]
  · rw [if_neg h]
    cases u with
    | scalar x => simp [Factor.size] at h
    | diag v => simp [Factor.shape]
    | dense n m => rfl

theorem spec_regular_result_shape (arrays : List Factor) (damping : ℝ)
    (i : ℕ) :
    ((spec_regular_result arrays damping)[i]?).map Factor.shape
      = (arrays[i]?).map Factor.shape := by
  unfold spec_regular_result
  split
  · rw [List.getElem?_map]
    unfold spec_us
    rw [List.getElem?_map]
    cases arrays[i]? with
    | none => rfl
    | some a =>
      simp only [Option.map_some']
      congr 1
      rw [Factor.shape_divScalar, Factor.shape_onesLike, Factor.shape_divScalar]
  · rw [List.getElem?_map]
    unfold spec_us
    rw [List.getElem?_map]
    cases arrays[i]? with
    | none => rfl
    | some a =>
      simp only [Option.map_some']
      congr 1
      rw [spec_regular_factor_shape, Factor.shape_divScalar]

/-- C1: whenever the regular branch is taken (the flag is disabled or
`c > 0`), `pi_adjusted_kronecker_inverse` returns, per position: for
`m = 0`, every normalized factor inverted to ones and divided by
`c_k = (c+damping)^(1/k)`; for `m > 0`, each normalized factor inverted
as ones (size 1) / damped PSD solve (2D) / elementwise `1/(u+d_hat)`
(1D) with `c_k = c^(1/k)`, `d_hat = (damping/c)^(1/m)`, divided by
`c_k`; and the output has the input's arity and per-factor shapes. -/
theorem C1_regular_branch (lob : LobpcgFn) (pow : PowerIterFn)
    (special : Bool) (arrays : List Factor) (damping : ℝ)
    (hbranch : special = false ∨ 0 < spec_c arrays) :
    pi_adjusted_kronecker_inverse lob pow special arrays damping
        = spec_regular_result arrays damping ∧
    (pi_adjusted_kronecker_inverse lob pow special arrays damping).length
        = arrays.length ∧
    ∀ i : ℕ,
      ((pi_adjusted_kronecker_inverse lob pow special arrays damping)[i]?).map
          Factor.shape
        = (arrays[i]?).map Factor.shape := by
  have heq := pi_adjusted_regular lob pow special arrays damping hbranch
  refine ⟨heq, ?_, ?_⟩
  · rw [heq, spec_regular_result_length]
  · intro i
    rw [heq, spec_regular_result_shape]

/-- Witness for C1: one scalar factor with positive norm. -/
theorem C1_witness :
    ((true = false) ∨ 0 < spec_c [Factor.scalar 2]) ∧
    (pi_adjusted_kronecker_inverse (fun _ _ _ => 5) (fun _ _ => 5) true
          [Factor.scalar 2] 1
        = spec_regular_result [Factor.scalar 2] 1 ∧
      (pi_adjusted_kronecker_inverse (fun _ _ _ => 5) (fun _ _ => 5) true
          [Factor.scalar 2] 1).length = 1 ∧
      ∀ i : ℕ,
        ((pi_adjusted_kronecker_inverse (fun _ _ _ => 5) (fun _ _ => 5) true
            [Factor.scalar 2] 1)[i]?).map Factor.shape
          = (([Factor.scalar 2] : List Factor)[i]?).map Factor.shape) := by
  have hc : (0 : ℝ) < spec_c [Factor.scalar 2] := by
    simp only [spec_c, List.map_cons, List.map_nil, List.prod_cons,
      List.prod_nil, avg_trace_norm, mul_one]
    norm_num
  exact ⟨Or.inr hc,
    C1_regular_branch (fun _ _ _ => 5) (fun _ _ => 5) true [Factor.scalar 2] 1
      (Or.inr hc)⟩

/-- On the regular branch, a factor of element count 1 sits at a
position whose output is the all-ones array of its shape divided by
`c_k` (no `d_hat`). -/
theorem spec_regular_result_scalar_pos (arrays : List Factor) (damping : ℝ)
    (i : ℕ) (a : Factor) (ha : arrays[i]? = some a) (hsize : a.size = 1) :
    (spec_regular_result arrays damping)[i]?
      = some (a.onesLike.divScalar (spec_ck arrays damping)) := by
  unfold spec_regular_result
  split
  · unfold spec_us
    rw [List.getElem?_map, List.getElem?_map, ha]
    simp [Factor.onesLike_divScalar]
  · unfold spec_us
    rw [List.getElem?_map, List.getElem?_map, ha]
    simp only [Option.map_some']
    congr 1
    unfold spec_regular_factor
    rw [if_pos (by rw [Factor.size_divScalar]; exact hsize),
      Factor.onesLike_divScalar]

/-- C10: scalar-ness is decided by element count, not rank.  On the
regular branch, a factor `a` with `a.size = 1` (be it 0D, a length-1 1D
vector, or a 1×1 2D matrix) is excluded from the non-scalar count `m`,
and its output position holds the all-ones array of its own shape
divided by `c_k` with no per-factor damping; when every factor has
element count 1, `c_k` folds the damping in as `(c+damping)^(1/k)`. -/
theorem C10_scalar_by_element_count (lob : LobpcgFn) (pow : PowerIterFn)
    (special : Bool) (arrays : List Factor) (damping : ℝ) (i : ℕ) (a : Factor)
    (hbranch : special = false ∨ 0 < spec_c arrays)
    (ha : arrays[i]? = some a) (hsize : a.size = 1) :
    a ∉ (arrays.filter fun b => b.size != 1) ∧
    (pi_adjusted_kronecker_inverse lob pow special arrays damping)[i]?
        = some (a.onesLike.divScalar (spec_ck arrays damping)) ∧
    ((∀ b ∈ arrays, b.size = 1) →
      spec_ck arrays damping
        = (spec_c arrays + damping) ^ ((1 : ℝ) / (arrays.length : ℝ))) := by
  refine ⟨?_, ?_, ?_⟩
  · intro hmem
    have := (List.mem_filter.mp hmem).2
    simp [hsize] at this
  · rw [pi_adjusted_regular lob pow special arrays damping hbranch]
    exact spec_regular_result_scalar_pos arrays damping i a ha hsize
  · intro hall
    have hm : spec_nonscalar_count arrays = 0 := by
      unfold spec_nonscalar_count
      rw [List.filter_eq_nil_iff.mpr (by intro b hb; simp [hall b hb])]
      rfl
    unfold spec_ck
    rw [if_pos hm]

/-- Witness for C10: a length-1 diagonal (1D) factor alongside a genuine
2×2 diagonal factor. -/
theorem C10_witness :
    ((true = false) ∨ 0 < spec_c [Factor.diag [3], Factor.diag [2, 2]]) ∧
    (([Factor.diag [3], Factor.diag [2, 2]] : List Factor)[0]?
        = some (Factor.diag [3])) ∧
    (Factor.diag [3]).size = 1 ∧
    (Factor.diag [3]
        ∉ (([Factor.diag [3], Factor.diag [2, 2]] : List Factor).filter
            fun b => b.size != 1) ∧
      (pi_adjusted_kronecker_inverse (fun _ _ _ => 5) (fun _ _ => 5) true
          [Factor.diag [3], Factor.diag [2, 2]] 1)[0]?
          = some ((Factor.diag [3]).onesLike.divScalar
              (spec_ck [Factor.diag [3], Factor.diag [2, 2]] 1)) ∧
      ((∀ b ∈ ([Factor.diag [3], Factor.diag [2, 2]] : List Factor),
          b.size = 1) →
        spec_ck [Factor.diag [3], Factor.diag [2, 2]] 1
          = (spec_c [Factor.diag [3], Factor.diag [2, 2]] + 1)
              ^ ((1 : ℝ) / ((2 : ℕ) : ℝ)))) := by
  have hc : (0 : ℝ) < spec_c [Factor.diag [3], Factor.diag [2, 2]] := by
    simp only [spec_c, List.map_cons, List.map_nil, List.prod_cons,
      List.prod_nil, avg_trace_norm, mul_one]
    norm_num
  exact ⟨Or.inr hc, rfl, rfl,
    C10_scalar_by_element_count (fun _ _ _ => 5) (fun _ _ => 5) true
      [Factor.diag [3], Factor.diag [2, 2]] 1 0 (Factor.diag [3])
      (Or.inr hc) rfl rfl⟩

/-! ### Flat square matrices and Kronecker products

`SqMat` is a square matrix in flat row-major form: a dimension together
with a total entry function (entries outside `[0, dim)` are irrelevant).
`kron` is the Kronecker product under row-major indexing:
`(A ⊗ B)[i, j] = A[i / dB, j / dB] * B[i % dB, j % dB]`. -/

structure SqMat where
  dim : ℕ
  entry : ℕ → ℕ → ℝ

def idMat (n : ℕ) : SqMat :=
  ⟨n, fun i j => if i = j then 1 else 0⟩

def kron (A B : SqMat) : SqMat :=
  ⟨A.dim * B.dim, fun i j =>
    A.entry (i / B.dim) (j / B.dim) * B.entry (i % B.dim) (j % B.dim)⟩

def kronList (ms : List SqMat) : SqMat :=
  ms.foldr kron (idMat 1)

/-- The square matrix a factor stands for, in flat form: the matrix
itself (2D), the diagonal matrix of a vector (1D), or a 1×1 matrix
(0D). -/
noncomputable def Factor.toSqMat : Factor → SqMat
  | .scalar x => ⟨1, fun _ _ => x⟩
  | .diag v => ⟨v.length, fun i j => if i = j then v.getD i 0 else 0⟩
  | .dense n m =>
    ⟨n, fun i j => if h : i < n ∧ j < n then m ⟨i, h.1⟩ ⟨j, h.2⟩ else 0⟩

theorem Factor.toSqMat_dim (a : Factor) : a.toSqMat.dim = a.matDim := by
  cases a <;> rfl

/-- `M` is `c • I` on its `dim × dim` support. -/
def isScaledIdMat (c : ℝ) (M : SqMat) : Prop :=
  ∀ i j, i < M.dim → j < M.dim → M.entry i j = if i = j then c else 0

theorem isScaledIdMat_idMat (n : ℕ) : isScaledIdMat 1 (idMat n) := by
  intro i j _ _
  rfl

theorem isScaledIdMat_kron {a b : ℝ} {A B : SqMat} (hA : isScaledIdMat a A)
    (hB : isScaledIdMat b B) : isScaledIdMat (a * b) (kron A B) := by
  intro i j hi hj
  simp only [kron] at hi hj ⊢
  rcases Nat.eq_zero_or_pos B.dim with hB0 | hB0
  · rw [hB0, Nat.mul_zero] at hi
    omega
  have hiA : i / B.dim < A.dim := (Nat.div_lt_iff_lt_mul hB0).mpr hi
  have hjA : j / B.dim < A.dim := (Nat.div_lt_iff_lt_mul hB0).mpr hj
  rw [hA _ _ hiA hjA, hB _ _ (Nat.mod_lt _ hB0) (Nat.mod_lt _ hB0)]
  by_cases hij : i = j
  · subst hij
    simp
  · rw [if_neg hij]
    by_cases hdiv : i / B.dim = j / B.dim
    · have hmod : ¬ i % B.dim = j % B.dim := by
        intro hmod
        apply hij
        have h1 := Nat.div_add_mod i B.dim
        have h2 := Nat.div_add_mod j B.dim
        rw [hdiv, hmod] at h1
        omega
      rw [if_neg hmod, mul_zero]
    · rw [if_neg hdiv, zero_mul]

theorem isScaledIdMat_kronList (c : ℝ) (ms : List SqMat)
    (h : ∀ M ∈ ms, isScaledIdMat c M) :
    isScaledIdMat (c ^ ms.length) (kronList ms) := by
  induction ms with
  | nil =>
    simpa [kronList] using isScaledIdMat_idMat 1
  | cons M rest ih =>
    have : isScaledIdMat (c * c ^ rest.length) (kron M (kronList rest)) :=
      isScaledIdMat_kron (h M (by simp))
        (ih fun N hN => h N (by simp [hN]))
    simpa [kronList, List.length_cons, pow_succ, mul_comm] using this

theorem kronList_dim (ms : List SqMat) :
    (kronList ms).dim = (ms.map SqMat.dim).prod := by
  induction ms with
  | nil => rfl
  | cons M rest ih =>
    show M.dim * (kronList rest).dim = M.dim * (rest.map SqMat.dim).prod
    rw [ih]

/-! ### Specification-side description of the zero branch (C2) -/

/-- The claimed replacement before rescaling: an identity matrix for 2D
factors, an all-ones array for 1D/0D factors. -/
noncomputable def spec_zero_factor : Factor → Factor
  | .dense n _ => .dense n (1 : Matrix (Fin n) (Fin n) ℝ)
  | a => a.onesLike

/-- The claimed value of the zero branch: per input position, the
identity/ones replacement of the input's shape divided by
`damping^(1/k)`. -/
noncomputable def spec_zero_result (arrays : List Factor) (damping : ℝ) :
    List Factor :=
  arrays.map fun a =>
    (spec_zero_factor a).divScalar (damping ^ ((1 : ℝ) / (arrays.length : ℝ)))

theorem spec_zero_factor_shape (a : Factor) :
    (spec_zero_factor a).shape = a.shape := by
  cases a <;> simp [spec_zero_factor, Factor.onesLike, Factor.shape]

theorem spec_zero_factor_matDim (a : Factor) :
    (spec_zero_factor a).matDim = a.matDim := by
  cases a with
  | scalar x => rfl
  | diag v => simp [spec_zero_factor, Factor.onesLike, Factor.matDim]
  | dense n m => rfl

/-- The source zero branch computes exactly the claimed value. -/
theorem zero_inverse_eq_spec (arrays : List Factor) (damping : ℝ) :
    zero_inverse (spec_us arrays) arrays.length damping
      = spec_zero_result arrays damping := by
  simp only [zero_inverse, spec_zero_result, spec_us, List.map_map]
  apply List.map_congr_left
  intro a _
  simp only [Function.comp_apply]
  cases a with
  | scalar x => rfl
  | diag v =>
    show ((Factor.diag v).divScalar _).onesLike.divScalar _ = _
    rw [Factor.onesLike_divScalar]
    rfl
  | dense n m => rfl

/-- When the flag is on and `c` is not positive,
`pi_adjusted_kronecker_inverse` takes the zero branch. -/
theorem pi_adjusted_zero (lob : LobpcgFn) (pow : PowerIterFn)
    (arrays : List Factor) (damping : ℝ) (hc : ¬ 0 < spec_c arrays) :
    pi_adjusted_kronecker_inverse lob pow true arrays damping
      = spec_zero_result arrays damping := by
  rw [pi_adjusted_eq_branches, if_pos rfl, if_neg hc, zero_inverse_eq_spec]

/-- Each rescaled zero-branch factor is `(1/c_k) • I` in flat form. -/
theorem spec_zero_factor_isScaledId (a : Factor) (c : ℝ) :
    isScaledIdMat (1 / c) (((spec_zero_factor a).divScalar c).toSqMat) := by
  cases a with
  | scalar x =>
    intro i j hi hj
    simp only [spec_zero_factor, Factor.onesLike, Factor.divScalar,
      Factor.toSqMat] at hi hj ⊢
    have hi0 : i = 0 := by omega
    have hj0 : j = 0 := by omega
    subst hi0
    subst hj0
    simp
  | diag v =>
    intro i j hi hj
    simp only [spec_zero_factor, Factor.onesLike, Factor.divScalar,
      Factor.toSqMat, List.length_map] at hi hj ⊢
    by_cases hij : i = j
    · subst hij
      rw [if_pos rfl, if_pos rfl,
        List.getD_eq_getElem _ _ (by simpa using hi)]
      simp
    · rw [if_neg hij, if_neg hij]
  | dense n m =>
    intro i j hi hj
    simp only [spec_zero_factor, Factor.divScalar, Factor.toSqMat] at hi hj ⊢
    rw [dif_pos ⟨hi, hj⟩]
    simp only [Matrix.of_apply, Matrix.one_apply]
    by_cases hij : i = j
    · subst hij
      simp
    · rw [if_neg hij, if_neg (by simpa using hij), zero_div]

theorem spec_zero_factor_toSqMat_dim (a : Factor) (c : ℝ) :
    (((spec_zero_factor a).divScalar c).toSqMat).dim = a.matDim := by
  rw [Factor.toSqMat_dim, Factor.matDim_divScalar, spec_zero_factor_matDim]

/-- C2: with the special-case flag enabled and `c` not positive, the
zero branch returns, per input position, an identity matrix (2D) or
all-ones array (1D/0D) of the input's shape divided by `damping^(1/k)`;
the output keeps the input's arity and shapes, and for `damping > 0` the
Kronecker product of the output factors is exactly `damping⁻¹ · I` (in
particular every entry is a well-defined real number — no NaN/Inf). -/
theorem C2_zero_branch (lob : LobpcgFn) (pow : PowerIterFn)
    (arrays : List Factor) (damping : ℝ)
    (hc : ¬ 0 < spec_c arrays) (hd : 0 < damping) :
    pi_adjusted_kronecker_inverse lob pow true arrays damping
        = spec_zero_result arrays damping ∧
    (pi_adjusted_kronecker_inverse lob pow true arrays damping).length
        = arrays.length ∧
    (∀ i : ℕ,
      ((pi_adjusted_kronecker_inverse lob pow true arrays damping)[i]?).map
          Factor.shape
        = (arrays[i]?).map Factor.shape) ∧
    (kronList ((pi_adjusted_kronecker_inverse lob pow true arrays
        damping).map Factor.toSqMat)).dim = (arrays.map Factor.matDim).prod ∧
    isScaledIdMat damping⁻¹
      (kronList ((pi_adjusted_kronecker_inverse lob pow true arrays
        damping).map Factor.toSqMat)) := by
  have hne : arrays ≠ [] := by
    intro h
    apply hc
    rw [h]
    simp [spec_c]
  have hk : (arrays.length : ℝ) ≠ 0 := by
    simpa using fun h => hne (List.length_eq_zero.mp h)
  have heq := pi_adjusted_zero lob pow arrays damping hc
  set ck := damping ^ ((1 : ℝ) / (arrays.length : ℝ)) with hck
  have hckpow : ck ^ arrays.length = damping := by
    rw [hck, ← Real.rpow_natCast (damping ^ ((1 : ℝ) / (arrays.length : ℝ)))
      arrays.length, ← Real.rpow_mul hd.le]
    rw [one_div, inv_mul_cancel₀ hk, Real.rpow_one]
  refine ⟨heq, ?_, ?_, ?_, ?_⟩
  · rw [heq]
    simp [spec_zero_result]
  · intro i
    rw [heq]
    unfold spec_zero_result
    rw [List.getElem?_map]
    cases arrays[i]? with
    | none => rfl
    | some a =>
      simp only [Option.map_some']
      congr 1
      rw [Factor.shape_divScalar, spec_zero_factor_shape]
  · rw [heq, kronList_dim]
    unfold spec_zero_result
    rw [List.map_map, List.map_map]
    congr 1
    apply List.map_congr_left
    intro a _
    simp only [Function.comp_apply]
    rw [← hck, spec_zero_factor_toSqMat_dim]
  · rw [heq]
    have hlen : ((spec_zero_result arrays damping).map Factor.toSqMat).length
        = arrays.length := by
      simp [spec_zero_result]
    have hall : ∀ M ∈ (spec_zero_result arrays damping).map Factor.toSqMat,
        isScaledIdMat (1 / ck) M := by
      intro M hM
      obtain ⟨f, hf, rfl⟩ := List.mem_map.mp hM
      unfold spec_zero_result at hf
      obtain ⟨a, _, rfl⟩ := List.mem_map.mp hf
      rw [← hck]
      exact spec_zero_factor_isScaledId a ck
    have := isScaledIdMat_kronList (1 / ck)
      ((spec_zero_result arrays damping).map Factor.toSqMat) hall
    rw [hlen] at this
    have hval : (1 / ck) ^ arrays.length = damping⁻¹ := by
      rw [div_pow, one_pow, hckpow, one_div]
    rwa [hval] at this

/-- Witness for C2: a single zero scalar factor with `damping = 1`. -/
theorem C2_witness :
    (¬ (0 : ℝ) < spec_c [Factor.scalar 0]) ∧ ((0 : ℝ) < 1) ∧
    (pi_adjusted_kronecker_inverse (fun _ _ _ => 5) (fun _ _ => 5) true
          [Factor.scalar 0] 1
        = spec_zero_result [Factor.scalar 0] 1 ∧
      (pi_adjusted_kronecker_inverse (fun _ _ _ => 5) (fun _ _ => 5) true
          [Factor.scalar 0] 1).length = 1 ∧
      (∀ i : ℕ,
        ((pi_adjusted_kronecker_inverse (fun _ _ _ => 5) (fun _ _ => 5) true
            [Factor.scalar 0] 1)[i]?).map Factor.shape
          = (([Factor.scalar 0] : List Factor)[i]?).map Factor.shape) ∧
      (kronList ((pi_adjusted_kronecker_inverse (fun _ _ _ => 5)
          (fun _ _ => 5) true [Factor.scalar 0] 1).map Factor.toSqMat)).dim
          = (([Factor.scalar 0] : List Factor).map Factor.matDim).prod ∧
      isScaledIdMat (1 : ℝ)⁻¹
        (kronList ((pi_adjusted_kronecker_inverse (fun _ _ _ => 5)
          (fun _ _ => 5) true [Factor.scalar 0] 1).map Factor.toSqMat))) := by
  have hc : ¬ (0 : ℝ) < spec_c [Factor.scalar 0] := by
    simp only [spec_c, List.map_cons, List.map_nil, List.prod_cons,
      List.prod_nil, avg_trace_norm, mul_one]
    norm_num
  exact ⟨hc, by norm_num,
    C2_zero_branch (fun _ _ _ => 5) (fun _ _ => 5) [Factor.scalar 0] 1 hc
      (by norm_num)⟩

/-! ## Kronecker axis operators (source lines 554-662)

Tensors are embedded in flat row-major form: a shape together with a
total data function on flat indices (entries at indices `≥ shape.prod`
are irrelevant).  Under row-major vectorization, reshaping is the
identity on the flat data, and contracting a factor along a folded
middle axis is multiplication by `I_a ⊗ F ⊗ I_b`. -/

def SqMat.transposeM (A : SqMat) : SqMat :=
  ⟨A.dim, fun i j => A.entry j i⟩

noncomputable def matMul (M N : SqMat) : SqMat :=
  ⟨M.dim, fun i j => ∑ k ∈ Finset.range N.dim, M.entry i k * N.entry k j⟩

noncomputable def mulVec (M : SqMat) (v : ℕ → ℝ) : ℕ → ℝ :=
  fun i => ∑ j ∈ Finset.range M.dim, M.entry i j * v j

/-- Equality of square matrices on their `dim × dim` support. -/
def matEqOn (M N : SqMat) : Prop :=
  M.dim = N.dim ∧ ∀ i j, i < M.dim → j < M.dim → M.entry i j = N.entry i j

theorem matEqOn_refl (M : SqMat) : matEqOn M M :=
  ⟨rfl, fun _ _ _ _ => rfl⟩

theorem matEqOn_trans {M N P : SqMat} (h1 : matEqOn M N) (h2 : matEqOn N P) :
    matEqOn M P := by
  refine ⟨h1.1.trans h2.1, fun i j hi hj => ?_⟩
  rw [h1.2 i j hi hj, h2.2 i j (h1.1 ▸ hi) (h1.1 ▸ hj)]

theorem mulVec_congr {M N : SqMat} (h : matEqOn M N) (v : ℕ → ℝ) (i : ℕ)
    (hi : i < M.dim) : mulVec M v i = mulVec N v i := by
  unfold mulVec
  rw [← h.1]
  exact Finset.sum_congr rfl fun j hj => by
    rw [h.2 i j hi (Finset.mem_range.mp hj)]

theorem mulVec_idMat (n : ℕ) (v : ℕ → ℝ) (i : ℕ) (hi : i < n) :
    mulVec (idMat n) v i = v i := by
  unfold mulVec idMat
  rw [Finset.sum_congr rfl
    (fun j _ => by rw [ite_mul, one_mul, zero_mul]),
    Finset.sum_ite_eq (Finset.range n) i v]
  rw [if_pos (Finset.mem_range.mpr hi)]

theorem SqMat.ext' {M N : SqMat} (hd : M.dim = N.dim)
    (he : ∀ i j, M.entry i j = N.entry i j) : M = N := by
  cases M
  cases N
  simp only [SqMat.mk.injEq]
  exact ⟨hd, funext fun i => funext fun j => he i j⟩

theorem matMul_idMat_left (M : SqMat) (n : ℕ) (h : M.dim = n) :
    matEqOn (matMul (idMat n) M) M := by
  subst h
  constructor
  · rfl
  · intro i j hi hj
    have hi' : i < M.dim := hi
    show (∑ k ∈ Finset.range M.dim, (if i = k then (1 : ℝ) else 0) * M.entry k j)
      = M.entry i j
    rw [Finset.sum_congr rfl (fun k _ => by rw [ite_mul, one_mul, zero_mul]),
      Finset.sum_ite_eq (Finset.range M.dim) i (fun k => M.entry k j),
      if_pos (Finset.mem_range.mpr hi')]

theorem matMul_idMat_right (M : SqMat) (n : ℕ) (h : M.dim = n) :
    matEqOn (matMul M (idMat n)) M := by
  subst h
  constructor
  · rfl
  · intro i j hi hj
    have hj' : j < M.dim := hj
    show (∑ k ∈ Finset.range M.dim, M.entry i k * (if k = j then (1 : ℝ) else 0))
      = M.entry i j
    rw [Finset.sum_congr rfl (fun k _ => by rw [mul_ite, mul_one, mul_zero]),
      Finset.sum_ite_eq' (Finset.range M.dim) j (fun k => M.entry i k),
      if_pos (Finset.mem_range.mpr hj')]

theorem kron_congr {A A' B B' : SqMat} (hA : matEqOn A A') (hB : matEqOn B B') :
    matEqOn (kron A B) (kron A' B') := by
  obtain ⟨hAd, hAe⟩ := hA
  obtain ⟨hBd, hBe⟩ := hB
  constructor
  · show A.dim * B.dim = A'.dim * B'.dim
    rw [hAd, hBd]
  · intro i j hi hj
    have hi' : i < A.dim * B.dim := hi
    have hj' : j < A.dim * B.dim := hj
    show A.entry (i / B.dim) (j / B.dim) * B.entry (i % B.dim) (j % B.dim)
      = A'.entry (i / B'.dim) (j / B'.dim) * B'.entry (i % B'.dim) (j % B'.dim)
    rcases Nat.eq_zero_or_pos B.dim with hB0 | hB0
    · rw [hB0, Nat.mul_zero] at hi'
      omega
    rw [hAe _ _ ((Nat.div_lt_iff_lt_mul hB0).mpr hi')
        ((Nat.div_lt_iff_lt_mul hB0).mpr hj'),
      hBe _ _ (Nat.mod_lt _ hB0) (Nat.mod_lt _ hB0), hBd]

theorem kron_assoc (A B C : SqMat) : kron (kron A B) C = kron A (kron B C) := by
  apply SqMat.ext'
  · exact Nat.mul_assoc _ _ _
  · intro i j
    have hdiv : ∀ m : ℕ, m / C.dim / B.dim = m / (B.dim * C.dim) := fun m => by
      rw [Nat.div_div_eq_div_mul, Nat.mul_comm C.dim B.dim]
    have hmid : ∀ m : ℕ, m % (B.dim * C.dim) / C.dim = m / C.dim % B.dim :=
      fun m => by
        rw [Nat.mul_comm B.dim C.dim, Nat.mod_mul_right_div_self]
    have hlast : ∀ m : ℕ, m % (B.dim * C.dim) % C.dim = m % C.dim := fun m =>
      Nat.mod_mod_of_dvd m (dvd_mul_left C.dim B.dim)
    show (A.entry (i / C.dim / B.dim) (j / C.dim / B.dim)
        * B.entry (i / C.dim % B.dim) (j / C.dim % B.dim))
        * C.entry (i % C.dim) (j % C.dim)
      = A.entry (i / (B.dim * C.dim)) (j / (B.dim * C.dim))
        * (B.entry (i % (B.dim * C.dim) / C.dim) (j % (B.dim * C.dim) / C.dim)
          * C.entry (i % (B.dim * C.dim) % C.dim) (j % (B.dim * C.dim) % C.dim))
    rw [hdiv i, hdiv j, hmid i, hmid j, hlast i, hlast j]
    ring

theorem kron_idMat_idMat (a b : ℕ) : kron (idMat a) (idMat b) = idMat (a * b) := by
  apply SqMat.ext'
  · rfl
  · intro i j
    show (if i / b = j / b then (1 : ℝ) else 0)
        * (if i % b = j % b then (1 : ℝ) else 0)
      = if i = j then 1 else 0
    by_cases hij : i = j
    · subst hij
      simp
    · rw [if_neg hij]
      by_cases hdiv : i / b = j / b
      · have hmod : ¬ i % b = j % b := by
          intro hmod
          apply hij
          have h1 := Nat.div_add_mod i b
          have h2 := Nat.div_add_mod j b
          rw [hdiv, hmod] at h1
          omega
        rw [if_neg hmod, mul_zero]
      · rw [if_neg hdiv, zero_mul]

theorem kron_idMat_one_left (K : SqMat) : matEqOn (kron (idMat 1) K) K := by
  refine ⟨by simp [kron, idMat], fun i j hi hj => ?_⟩
  simp only [kron, idMat, Nat.one_mul] at hi hj ⊢
  rw [Nat.div_eq_of_lt hi, Nat.div_eq_of_lt hj, if_pos rfl, one_mul,
    Nat.mod_eq_of_lt hi, Nat.mod_eq_of_lt hj]

/-- Splitting a sum over `range (p * q)` along base-`q` digits. -/
theorem sum_range_mul (f : ℕ → ℝ) (p q : ℕ) :
    ∑ k ∈ Finset.range (p * q), f k
      = ∑ i ∈ Finset.range p, ∑ j ∈ Finset.range q, f (i * q + j) := by
  induction p with
  | zero => simp
  | succ p ih =>
    have h1 : (p + 1) * q = p * q + q := by ring
    rw [h1, Finset.range_eq_Ico,
      ← Finset.sum_Ico_consecutive f (Nat.zero_le (p * q))
        (Nat.le_add_right (p * q) q),
      ← Finset.range_eq_Ico, ih, Finset.sum_Ico_eq_sum_range,
      Finset.sum_range_succ]
    congr 1
    · rw [Nat.add_sub_cancel_left]

/-- Composition of matrix-vector products. -/
theorem mulVec_mulVec (M N : SqMat) (h : M.dim = N.dim) (v : ℕ → ℝ) (i : ℕ) :
    mulVec M (mulVec N v) i = mulVec (matMul M N) v i := by
  simp only [mulVec, matMul]
  rw [h]
  rw [Finset.sum_congr rfl fun j _ => Finset.mul_sum (Finset.range N.dim)
    (fun k => N.entry j k * v k) (M.entry i j)]
  rw [Finset.sum_comm]
  exact Finset.sum_congr rfl fun k _ => by
    rw [Finset.sum_mul]
    exact Finset.sum_congr rfl fun j _ => by ring

/-- The mixed-product property `(A ⊗ B)(C ⊗ D) = (AC) ⊗ (BD)` for the
flat row-major Kronecker product. -/
theorem matMul_kron (A B C D : SqMat) (hBD : B.dim = D.dim) :
    matMul (kron A B) (kron C D) = kron (matMul A C) (matMul B D) := by
  simp only [matMul, kron]
  congr 1
  funext i j
  rcases Nat.eq_zero_or_pos D.dim with hD0 | hD0
  · rw [hBD, hD0]
    simp
  rw [hBD, sum_range_mul _ C.dim D.dim, Finset.sum_mul_sum]
  refine Finset.sum_congr rfl fun k1 _ => Finset.sum_congr rfl fun k2 hk2 => ?_
  have hk2' : k2 < D.dim := Finset.mem_range.mp hk2
  have hdiv : (k1 * D.dim + k2) / D.dim = k1 := by
    rw [Nat.mul_comm k1 D.dim, Nat.mul_add_div hD0, Nat.div_eq_of_lt hk2',
      Nat.add_zero]
  have hmod : (k1 * D.dim + k2) % D.dim = k2 := by
    rw [Nat.mul_comm k1 D.dim, Nat.mul_add_mod, Nat.mod_eq_of_lt hk2']
  rw [hdiv, hmod]
  ring

/-- A tensor in flat row-major form. -/
structure Tensor where
  shape : List ℕ
  data : ℕ → ℝ

/-- Python `min` over a (nonempty) list; 0 on the empty list, where
Python raises. -/
def listMin : List ℕ → ℕ
  | [] => 0
  | x :: xs => xs.foldl Nat.min x

/-- Python `max` over a (nonempty) list; 0 on the empty list, where
Python raises. -/
def listMax : List ℕ → ℕ
  | [] => 0
  | x :: xs => xs.foldl Nat.max x

/-- The size of the single axis obtained by folding the contiguous axis
group `g` of a tensor of shape `s` (the `-1` in the source's reshape
`v.shape[:min(group)] + (-1,) + v.shape[max(group)+1:]`). -/
def foldedSize (s g : List ℕ) : ℕ :=
  ((s.drop (listMin g)).take (listMax g + 1 - listMin g)).prod

/-- One loop iteration of `kronecker_product_axis_mul_v` on flat data:
fold the axis group into a single middle axis of size `dy` (a reshape —
the identity on row-major flat data), contract the factor along it via
`einsum` (`"zy,..y..->..z.."`, or `"yz,..."` when transposing), and
reshape back.  On flat indices this is precisely
`i ↦ ∑ y, F[z, y] · data[x·dy·b + y·b + w]` with
`x = i/(dy·b)`, `z = (i/b) % dy`, `w = i % b`. -/
noncomputable def contractStep (vshape g : List ℕ) (F : SqMat) (t : Bool)
    (data : ℕ → ℝ) : ℕ → ℝ :=
  let dy := foldedSize vshape g
  let b := (vshape.drop (listMax g + 1)).prod
  fun i =>
    ∑ y ∈ Finset.range dy,
      (if t then F.entry y (i / b % dy) else F.entry (i / b % dy) y)
        * data (i / (dy * b) * (dy * b) + y * b + i % b)

/-- The `for group, factor, f_str in zip(...)` loop of
`kronecker_product_axis_mul_v`. -/
noncomputable def applySteps (vshape : List ℕ) :
    List (List ℕ) → List SqMat → List Bool → (ℕ → ℝ) → (ℕ → ℝ)
  | [], _, _, d => d
  | _ :: _, [], _, d => d
  | _ :: _, _ :: _, [], d => d
  | g :: gs, F :: fs, t :: ts, d =>
    applySteps vshape gs fs ts (contractStep vshape g F t d)

/-- Resolution of the `transpose` argument: a single boolean is
broadcast to every factor; a sequence must match the factor count. -/
def resolveTranspose (transpose : Bool ⊕ List Bool) (k : ℕ) :
    Except String (List Bool) :=
  match transpose with
  | .inl b => .ok (List.replicate k b)
  | .inr l =>
    if l.length ≠ k then
      .error "The length of the transpose sequence must match the number of factors."
    else .ok l

/-- Source `kronecker_product_axis_mul_v` on a flat tensor.  The two
explicit sanity checks of the source come first; the remaining two
error cases arise inside the loop (`min()` of an empty group raises, and
`jnp.einsum` raises when a factor's dimension does not match its folded
axis size) and are modelled as up-front checks. -/
noncomputable def kronecker_product_axis_mul_v (factors : List SqMat)
    (v : Tensor) (axis_groups : Option (List (List ℕ)))
    (transpose : Bool ⊕ List Bool) : Except String Tensor :=
  let groups := axis_groups.getD ((List.range v.shape.length).map fun i => [i])
  if groups.flatten ≠ List.range v.shape.length then
    .error "The `axis_groups` are either not in consecutive order or do not cover exactly the axis of the input `v`."
  else if factors.length ≠ groups.length then
    .error "The number of factors provided must be equal to the number of axis groups provided."
  else
    match resolveTranspose transpose factors.length with
    | .error e => .error e
    | .ok ts =>
      if groups.any List.isEmpty then
        .error "min() arg is an empty sequence"
      else if ¬ ((List.zip groups factors).all fun p =>
          p.2.dim == foldedSize v.shape p.1) then
        .error "einsum: dimensions of factor do not match its axis group"
      else .ok ⟨v.shape, applySteps v.shape groups factors ts v.data⟩

/-- The factors with their transpose flags applied. -/
def appliedFactors (factors : List SqMat) (ts : List Bool) : List SqMat :=
  List.zipWith (fun F t => if t then F.transposeM else F) factors ts

/-- The specification's naive reference computation: materialize the
full Kronecker product of the (transposed-as-flagged) factors, multiply
it by the row-major vectorization of `v`, and reshape back to `v`'s
shape. -/
noncomputable def naive_kron_mul_v (factors : List SqMat) (ts : List Bool)
    (v : Tensor) : Tensor :=
  ⟨v.shape, mulVec (kronList (appliedFactors factors ts)) v.data⟩

theorem foldl_min_const {o : ℕ} :
    ∀ l : List ℕ, (∀ x ∈ l, o ≤ x) → l.foldl Nat.min o = o := by
  intro l
  induction l with
  | nil => intro _; rfl
  | cons x xs ih =>
    intro h
    show (x :: xs).foldl Nat.min o = o
    have h1 : Nat.min o x = o := by
      show min o x = o
      have := h x (by simp)
      omega
    rw [List.foldl_cons, h1]
    exact ih fun y hy => h y (by simp [hy])

theorem listMin_range' (o n : ℕ) : listMin (List.range' o (n + 1)) = o := by
  rw [List.range'_succ]
  show (List.range' (o + 1) n).foldl Nat.min o = o
  exact foldl_min_const _ fun x hx => by
    have := (List.mem_range'_1.mp hx).1
    omega

theorem listMax_range' (o n : ℕ) : listMax (List.range' o (n + 1)) = o + n := by
  induction n generalizing o with
  | zero => rfl
  | succ n ih =>
    rw [List.range'_succ]
    show (List.range' (o + 1) (n + 1)).foldl Nat.max o = o + (n + 1)
    have hstep : (List.range' (o + 1) (n + 1)).foldl Nat.max o
        = (List.range' (o + 2) n).foldl Nat.max (o + 1) := by
      have h1 : Nat.max o (o + 1) = o + 1 := by
        show max o (o + 1) = o + 1
        omega
      rw [List.range'_succ, List.foldl_cons, h1]
    rw [hstep]
    have := ih (o + 1)
    rw [List.range'_succ] at this
    have h2 : (List.range' (o + 2) n).foldl Nat.max (o + 1) = o + 1 + n := this
    omega

theorem foldedSize_range' (s : List ℕ) (o n : ℕ) :
    foldedSize s (List.range' o (n + 1)) = ((s.drop o).take (n + 1)).prod := by
  unfold foldedSize
  rw [listMin_range', listMax_range']
  congr 2
  omega

theorem sum_range_mul3 (f : ℕ → ℝ) (a d b : ℕ) :
    ∑ k ∈ Finset.range (a * (d * b)), f k
      = ∑ x ∈ Finset.range a, ∑ y ∈ Finset.range d, ∑ w ∈ Finset.range b,
          f (x * (d * b) + (y * b + w)) := by
  rw [sum_range_mul f a (d * b)]
  exact Finset.sum_congr rfl fun x _ => by
    rw [sum_range_mul (fun r => f (x * (d * b) + r)) d b]

/-- The action of `I_A ⊗ G ⊗ I_b` on a flat vector, at a valid index:
a single contraction along the middle block of the index. -/
theorem contract_core (A b : ℕ) (G : SqMat) (v : ℕ → ℝ) (j : ℕ)
    (hj : j < A * (G.dim * b)) :
    mulVec (kron (idMat A) (kron G (idMat b))) v j
      = ∑ y ∈ Finset.range G.dim,
          G.entry (j / b % G.dim) y
            * v (j / (G.dim * b) * (G.dim * b) + y * b + j % b) := by
  have hpos : 0 < A * (G.dim * b) := Nat.lt_of_le_of_lt (Nat.zero_le j) hj
  have hA : 0 < A := Nat.pos_of_ne_zero fun h => by simp [h] at hpos
  have hdb : 0 < G.dim * b := Nat.pos_of_ne_zero fun h => by simp [h] at hpos
  have hd : 0 < G.dim := Nat.pos_of_ne_zero fun h => by simp [h] at hdb
  have hb : 0 < b := Nat.pos_of_ne_zero fun h => by simp [h] at hdb
  show (∑ k ∈ Finset.range (A * (G.dim * b)),
      (if j / (G.dim * b) = k / (G.dim * b) then (1 : ℝ) else 0)
        * (G.entry (j % (G.dim * b) / b) (k % (G.dim * b) / b)
          * (if j % (G.dim * b) % b = k % (G.dim * b) % b then (1 : ℝ) else 0))
        * v k) = _
  rw [sum_range_mul3 _ A G.dim b]
  have hterm : ∀ x y w : ℕ, y < G.dim → w < b →
      (if j / (G.dim * b) = (x * (G.dim * b) + (y * b + w)) / (G.dim * b)
          then (1 : ℝ) else 0)
        * (G.entry (j % (G.dim * b) / b)
            ((x * (G.dim * b) + (y * b + w)) % (G.dim * b) / b)
          * (if j % (G.dim * b) % b
              = (x * (G.dim * b) + (y * b + w)) % (G.dim * b) % b
            then (1 : ℝ) else 0))
        * v (x * (G.dim * b) + (y * b + w))
      = (if j / (G.dim * b) = x then (1 : ℝ) else 0)
        * (G.entry (j % (G.dim * b) / b) y
          * (if j % (G.dim * b) % b = w then (1 : ℝ) else 0))
        * v (x * (G.dim * b) + (y * b + w)) := by
    intro x y w hy hw
    have hr : y * b + w < G.dim * b := by
      calc y * b + w < y * b + b := by omega
      _ = (y + 1) * b := by ring
      _ ≤ G.dim * b := Nat.mul_le_mul_right b (by omega)
    have hk1 : (x * (G.dim * b) + (y * b + w)) / (G.dim * b) = x := by
      rw [Nat.mul_comm x (G.dim * b), Nat.mul_add_div hdb,
        Nat.div_eq_of_lt hr, Nat.add_zero]
    have hk2 : (x * (G.dim * b) + (y * b + w)) % (G.dim * b) = y * b + w := by
      rw [Nat.mul_comm x (G.dim * b), Nat.mul_add_mod, Nat.mod_eq_of_lt hr]
    have hk3 : (y * b + w) / b = y := by
      rw [Nat.mul_comm y b, Nat.mul_add_div hb, Nat.div_eq_of_lt hw,
        Nat.add_zero]
    have hk4 : (y * b + w) % b = w := by
      rw [Nat.mul_comm y b, Nat.mul_add_mod, Nat.mod_eq_of_lt hw]
    rw [hk1, hk2, hk3, hk4]
  rw [Finset.sum_congr rfl fun x _ => Finset.sum_congr rfl fun y hy =>
    Finset.sum_congr rfl fun w hw =>
      hterm x y w (Finset.mem_range.mp hy) (Finset.mem_range.mp hw)]
  rw [Finset.sum_eq_single (j / (G.dim * b))
    (fun x _ hx => by
      rw [if_neg fun h => hx h.symm]
      simp)
    (fun hx => absurd (Finset.mem_range.mpr
      ((Nat.div_lt_iff_lt_mul hdb).mpr hj)) hx)]
  rw [if_pos rfl]
  rw [Finset.sum_congr rfl fun y _ => Finset.sum_eq_single (j % (G.dim * b) % b)
    (fun w _ hw => by
      rw [if_neg fun h => hw h.symm]
      simp)
    (fun hw => absurd (Finset.mem_range.mpr (Nat.mod_lt _ hb)) hw)]
  have hz : j % (G.dim * b) / b = j / b % G.dim := by
    rw [Nat.mul_comm G.dim b, Nat.mod_mul_right_div_self]
  have hw' : j % (G.dim * b) % b = j % b :=
    Nat.mod_mod_of_dvd j (dvd_mul_left b G.dim)
  rw [if_pos rfl, hz, hw']
  refine Finset.sum_congr rfl fun y _ => ?_
  rw [one_mul, mul_one, ← Nat.add_assoc]

/-- One loop iteration equals multiplication by `I_a ⊗ F' ⊗ I_b`, where
`a`, `b` are the products of the dimensions before and after the group
and `F'` is the (possibly transposed) factor. -/
theorem contractStep_eq_mulVec (s : List ℕ) (o len : ℕ) (hlen : 0 < len)
    (F : SqMat) (t : Bool) (v : ℕ → ℝ) (j : ℕ)
    (hdim : F.dim = ((s.drop o).take len).prod)
    (hj : j < (s.take o).prod
      * (((s.drop o).take len).prod * (s.drop (o + len)).prod)) :
    contractStep s (List.range' o len) F t v j
      = mulVec (kron (idMat ((s.take o).prod))
          (kron (if t then F.transposeM else F)
            (idMat ((s.drop (o + len)).prod)))) v j := by
  obtain ⟨n, rfl⟩ : ∃ n, len = n + 1 := ⟨len - 1, by omega⟩
  have hGdim : (if t then F.transposeM else F).dim = F.dim := by
    cases t <;> rfl
  have hentry : ∀ z y : ℕ,
      (if t then F.entry y z else F.entry z y)
        = (if t then F.transposeM else F).entry z y := by
    cases t <;> intro z y <;> rfl
  rw [← hdim] at hj
  rw [contract_core ((s.take o).prod) ((s.drop (o + (n + 1))).prod)
    (if t then F.transposeM else F) v j (by rw [hGdim]; exact hj)]
  have hfold : foldedSize s (List.range' o (n + 1)) = F.dim := by
    rw [foldedSize_range', hdim]
  have hmax : listMax (List.range' o (n + 1)) + 1 = o + (n + 1) := by
    rw [listMax_range']
    omega
  simp only [contractStep]
  rw [hfold, hmax, hGdim]
  exact Finset.sum_congr rfl fun y _ => by rw [hentry]

/-- Decomposing a flattened grouping that covers `range' o n`: the head
group is the first segment, the rest covers the remainder. -/
theorem flatten_range'_head {g : List ℕ} {gs : List (List ℕ)} {o n : ℕ}
    (h : (g :: gs).flatten = List.range' o n) :
    g = List.range' o g.length
      ∧ gs.flatten = List.range' (o + g.length) (n - g.length)
      ∧ g.length ≤ n := by
  rw [List.flatten_cons] at h
  have hlen : g.length + gs.flatten.length = n := by
    have := congrArg List.length h
    simpa [List.length_append, List.length_range'] using this
  have happ := List.range'_append o g.length gs.flatten.length 1
  rw [Nat.one_mul] at happ
  have hsplit : List.range' o n
      = List.range' o g.length ++ List.range' (o + g.length) gs.flatten.length := by
    rw [show n = gs.flatten.length + g.length from by omega]
    exact happ.symm
  rcases List.append_inj (h.trans hsplit) (List.length_range' _ _ _).symm
    with ⟨h1, h2⟩
  refine ⟨h1, ?_, by omega⟩
  rw [h2]
  congr 1
  omega

theorem take_add_prod (s : List ℕ) (o len : ℕ) :
    (s.take (o + len)).prod = (s.take o).prod * ((s.drop o).take len).prod := by
  rw [List.take_add, List.prod_append]

theorem prod_drop_split (s : List ℕ) (o len : ℕ) :
    (s.drop o).prod = ((s.drop o).take len).prod * (s.drop (o + len)).prod := by
  conv_lhs => rw [← List.take_append_drop len (s.drop o)]
  rw [List.prod_append, List.drop_drop]

theorem appliedFactors_map_dim :
    ∀ (fs : List SqMat) (ts : List Bool), ts.length = fs.length →
      (appliedFactors fs ts).map SqMat.dim = fs.map SqMat.dim := by
  intro fs
  induction fs with
  | nil => intro ts _; cases ts <;> rfl
  | cons F fs ih =>
    intro ts hts
    cases ts with
    | nil => simp at hts
    | cons t ts =>
      show ((if t then F.transposeM else F) :: appliedFactors fs ts).map
          SqMat.dim = F.dim :: fs.map SqMat.dim
      rw [List.map_cons, ih ts (by simpa using hts)]
      congr 1
      cases t <;> rfl

/-- The product of the factor dimensions of a conforming grouping equals
the product of the remaining axis sizes. -/
theorem applied_dims_prod (s : List ℕ) :
    ∀ (gs : List (List ℕ)) (fs : List SqMat) (o : ℕ),
      gs.flatten = List.range' o (s.length - o) →
      (∀ g ∈ gs, g ≠ []) →
      fs.length = gs.length →
      (∀ p ∈ List.zip gs fs, p.2.dim = foldedSize s p.1) →
      (fs.map SqMat.dim).prod = (s.drop o).prod := by
  intro gs
  induction gs with
  | nil =>
    intro fs o hflat _ hlen _
    have hfs : fs = [] := List.length_eq_zero.mp (by rw [hlen]; rfl)
    subst hfs
    have h0 : s.length - o = 0 :=
      List.range'_eq_nil.mp (hflat.symm : List.range' o (s.length - o) = [])
    rw [List.drop_eq_nil_of_le (by omega)]
    rfl
  | cons g gs ih =>
    intro fs o hflat hne hlen hconf
    obtain ⟨F, fs', rfl⟩ : ∃ F fs', fs = F :: fs' := by
      cases fs with
      | nil => simp at hlen
      | cons F fs' => exact ⟨F, fs', rfl⟩
    obtain ⟨hg, hrest, hgle⟩ := flatten_range'_head hflat
    have hgpos : 0 < g.length := List.length_pos.mpr (hne g (by simp))
    have hc : F.dim = foldedSize s g := hconf (g, F) (by rw [List.zip_cons_cons]; simp)
    obtain ⟨m, hm⟩ : ∃ m, g.length = m + 1 := ⟨g.length - 1, by omega⟩
    have hF : F.dim = ((s.drop o).take g.length).prod := by
      rw [hm, hc]
      conv_lhs => rw [hg, hm]
      rw [foldedSize_range']
    have hrest' : gs.flatten = List.range' (o + g.length)
        (s.length - (o + g.length)) := by
      rw [hrest]
      congr 1
      omega
    have ihres := ih fs' (o + g.length) hrest'
      (fun x hx => hne x (by simp [hx]))
      (by simpa using hlen)
      (fun p hp => hconf p (by rw [List.zip_cons_cons]; simp [hp]))
    rw [List.map_cons, List.prod_cons, ihres, hF, ← prod_drop_split]

theorem mulVec_congr_vec (M : SqMat) (w w' : ℕ → ℝ)
    (h : ∀ k, k < M.dim → w k = w' k) (i : ℕ) :
    mulVec M w i = mulVec M w' i := by
  unfold mulVec
  exact Finset.sum_congr rfl fun k hk => by
    rw [h k (Finset.mem_range.mp hk)]

/-- Core refinement: the sequential per-group contraction loop, started
after the first `o` axes have been consumed, is one multiplication by
`I_a ⊗ (F'_1 ⊗ ⋯ ⊗ F'_r)` with `a` the product of the consumed axis
sizes. -/
theorem applySteps_eq (s : List ℕ) :
    ∀ (gs : List (List ℕ)) (fs : List SqMat) (ts : List Bool) (o : ℕ)
      (v : ℕ → ℝ),
      gs.flatten = List.range' o (s.length - o) →
      (∀ g ∈ gs, g ≠ []) →
      fs.length = gs.length →
      ts.length = gs.length →
      (∀ p ∈ List.zip gs fs, p.2.dim = foldedSize s p.1) →
      ∀ i, i < (s.take o).prod * (s.drop o).prod →
        applySteps s gs fs ts v i
          = mulVec (kron (idMat ((s.take o).prod))
              (kronList (appliedFactors fs ts))) v i := by
  intro gs
  induction gs with
  | nil =>
    intro fs ts o v hflat _ hflen htlen _ i hi
    have hfs : fs = [] := List.length_eq_zero.mp (by rw [hflen]; rfl)
    have hts : ts = [] := List.length_eq_zero.mp (by rw [htlen]; rfl)
    subst hfs
    subst hts
    have hdrop1 : (s.drop o).prod = 1 := by
      have h0 : s.length - o = 0 :=
        List.range'_eq_nil.mp (hflat.symm : List.range' o (s.length - o) = [])
      rw [List.drop_eq_nil_of_le (by omega)]
      rfl
    show v i = mulVec (kron (idMat ((s.take o).prod)) (kronList [])) v i
    rw [show kronList ([] : List SqMat) = idMat 1 from rfl, kron_idMat_idMat,
      mulVec_idMat _ v i (by rw [hdrop1] at hi; exact hi)]
  | cons g gs ih =>
    intro fs ts o v hflat hne hflen htlen hconf i hi
    obtain ⟨F, fs', rfl⟩ : ∃ F fs', fs = F :: fs' := by
      cases fs with
      | nil => simp at hflen
      | cons F fs' => exact ⟨F, fs', rfl⟩
    obtain ⟨t, ts', rfl⟩ : ∃ t ts', ts = t :: ts' := by
      cases ts with
      | nil => simp at htlen
      | cons t ts' => exact ⟨t, ts', rfl⟩
    obtain ⟨hg, hrest, hgle⟩ := flatten_range'_head hflat
    have hgpos : 0 < g.length := List.length_pos.mpr (hne g (by simp))
    have hc : F.dim = foldedSize s g :=
      hconf (g, F) (by rw [List.zip_cons_cons]; simp)
    obtain ⟨m, hm⟩ : ∃ m, g.length = m + 1 := ⟨g.length - 1, by omega⟩
    have hF : F.dim = ((s.drop o).take g.length).prod := by
      rw [hm, hc]
      conv_lhs => rw [hg, hm]
      rw [foldedSize_range']
    have hF' : (if t then F.transposeM else F).dim
        = ((s.drop o).take g.length).prod := by
      cases t <;> exact hF
    have hrest' : gs.flatten = List.range' (o + g.length)
        (s.length - (o + g.length)) := by
      rw [hrest]
      congr 1
      omega
    have hsplit := prod_drop_split s o g.length
    have hstep : ∀ k, k < (s.take o).prod * (((s.drop o).take g.length).prod
        * (s.drop (o + g.length)).prod) →
        contractStep s g F t v k
          = mulVec (kron (idMat ((s.take o).prod))
              (kron (if t then F.transposeM else F)
                (idMat ((s.drop (o + g.length)).prod)))) v k := by
      intro k hk
      conv_lhs => rw [hg]
      exact contractStep_eq_mulVec s o g.length hgpos F t v k hF hk
    have hKdim : (kronList (appliedFactors fs' ts')).dim
        = (s.drop (o + g.length)).prod := by
      have hts'len : ts'.length = fs'.length := by
        have h1 : ts'.length = gs.length := by simpa using htlen
        have h2 : fs'.length = gs.length := by simpa using hflen
        omega
      rw [kronList_dim, appliedFactors_map_dim fs' ts' hts'len]
      exact applied_dims_prod s gs fs' (o + g.length) hrest'
        (fun x hx => hne x (by simp [hx])) (by simpa using hflen)
        (fun p hp => hconf p (by rw [List.zip_cons_cons]; simp [hp]))
    have hbound' : i < (s.take (o + g.length)).prod
        * (s.drop (o + g.length)).prod := by
      rw [take_add_prod, Nat.mul_assoc]
      rw [hsplit] at hi
      exact hi
    have ihres := ih fs' ts' (o + g.length) (contractStep s g F t v) hrest'
      (fun x hx => hne x (by simp [hx])) (by simpa using hflen)
      (by simpa using htlen)
      (fun p hp => hconf p (by rw [List.zip_cons_cons]; simp [hp]))
      i hbound'
    show applySteps s gs fs' ts' (contractStep s g F t v) i = _
    rw [ihres]
    have hw := mulVec_congr_vec
      (kron (idMat ((s.take (o + g.length)).prod))
        (kronList (appliedFactors fs' ts')))
      (contractStep s g F t v)
      (mulVec (kron (idMat ((s.take o).prod))
        (kron (if t then F.transposeM else F)
          (idMat ((s.drop (o + g.length)).prod)))) v)
      (by
        intro k hk
        apply hstep
        have hk' : k < (s.take (o + g.length)).prod
            * (kronList (appliedFactors fs' ts')).dim := hk
        rw [hKdim, take_add_prod, Nat.mul_assoc] at hk'
        exact hk')
      i
    rw [hw]
    have hMRdim : (kron (idMat ((s.take (o + g.length)).prod))
          (kronList (appliedFactors fs' ts'))).dim
        = (kron (idMat ((s.take o).prod))
            (kron (if t then F.transposeM else F)
              (idMat ((s.drop (o + g.length)).prod)))).dim := by
      show (s.take (o + g.length)).prod * (kronList (appliedFactors fs' ts')).dim
        = (s.take o).prod * ((if t then F.transposeM else F).dim
            * (s.drop (o + g.length)).prod)
      rw [hKdim, take_add_prod, hF', Nat.mul_assoc]
    rw [mulVec_mulVec _ _ hMRdim v i]
    have hM : kron (idMat ((s.take (o + g.length)).prod))
          (kronList (appliedFactors fs' ts'))
        = kron (idMat ((s.take o).prod))
            (kron (idMat (((s.drop o).take g.length).prod))
              (kronList (appliedFactors fs' ts'))) := by
      rw [take_add_prod, ← kron_idMat_idMat, kron_assoc]
    have hdim1 : (kron (idMat (((s.drop o).take g.length).prod))
          (kronList (appliedFactors fs' ts'))).dim
        = (kron (if t then F.transposeM else F)
            (idMat ((s.drop (o + g.length)).prod))).dim := by
      show ((s.drop o).take g.length).prod * (kronList (appliedFactors fs' ts')).dim
        = (if t then F.transposeM else F).dim * (s.drop (o + g.length)).prod
      rw [hKdim, hF']
    have hdim2 : (kronList (appliedFactors fs' ts')).dim
        = (idMat ((s.drop (o + g.length)).prod)).dim := hKdim
    have hchain : matEqOn
        (matMul (kron (idMat ((s.take (o + g.length)).prod))
            (kronList (appliedFactors fs' ts')))
          (kron (idMat ((s.take o).prod))
            (kron (if t then F.transposeM else F)
              (idMat ((s.drop (o + g.length)).prod)))))
        (kron (idMat ((s.take o).prod))
          (kron (if t then F.transposeM else F)
            (kronList (appliedFactors fs' ts')))) := by
      rw [hM, matMul_kron _ _ _ _ hdim1, matMul_kron _ _ _ _ hdim2]
      exact kron_congr (matMul_idMat_left (idMat ((s.take o).prod)) _ rfl)
        (kron_congr (matMul_idMat_left (if t then F.transposeM else F) _ hF')
          (matMul_idMat_right (kronList (appliedFactors fs' ts')) _ hKdim))
    have hiM : i < (matMul (kron (idMat ((s.take (o + g.length)).prod))
          (kronList (appliedFactors fs' ts')))
        (kron (idMat ((s.take o).prod))
          (kron (if t then F.transposeM else F)
            (idMat ((s.drop (o + g.length)).prod))))).dim := by
      show i < (s.take (o + g.length)).prod
        * (kronList (appliedFactors fs' ts')).dim
      rw [hKdim, take_add_prod, Nat.mul_assoc, ← hsplit]
      exact hi
    exact mulVec_congr hchain v i hiM

theorem resolveTranspose_length {tr : Bool ⊕ List Bool} {k : ℕ}
    {ts : List Bool} (h : resolveTranspose tr k = .ok ts) : ts.length = k := by
  cases tr with
  | inl b =>
    simp only [resolveTranspose] at h
    injection h with h'
    rw [← h']
    exact List.length_replicate k b
  | inr l =>
    simp only [resolveTranspose] at h
    split at h
    · cases h
    · injection h with h'
      rw [← h']
      omega

/-- On conforming inputs, `kronecker_product_axis_mul_v` succeeds with
the sequential contraction over the groups. -/
theorem kron_mul_v_ok (factors : List SqMat) (v : Tensor)
    (ago : Option (List (List ℕ))) (groups : List (List ℕ))
    (transpose : Bool ⊕ List Bool) (ts : List Bool)
    (hago : groups = ago.getD ((List.range v.shape.length).map fun i => [i]))
    (hg : groups.flatten = List.range v.shape.length)
    (hne : ∀ g ∈ groups, g ≠ [])
    (hlen : factors.length = groups.length)
    (ht : resolveTranspose transpose factors.length = .ok ts)
    (hconf : ∀ p ∈ List.zip groups factors, p.2.dim = foldedSize v.shape p.1) :
    kronecker_product_axis_mul_v factors v ago transpose
      = .ok ⟨v.shape, applySteps v.shape groups factors ts v.data⟩ := by
  have hempty : ¬ (groups.any List.isEmpty = true) := by
    intro hcon
    obtain ⟨x, hx, hxe⟩ := List.any_eq_true.mp hcon
    exact hne x hx (List.isEmpty_iff.mp hxe)
  have hall : ((List.zip groups factors).all fun p =>
      p.2.dim == foldedSize v.shape p.1) = true :=
    List.all_eq_true.mpr fun p hp => beq_iff_eq.mpr (hconf p hp)
  simp only [kronecker_product_axis_mul_v, ← hago]
  rw [if_neg (not_not_intro hg), if_neg (not_not_intro hlen)]
  simp only [ht]
  rw [if_neg hempty, if_neg (not_not_intro hall)]

/-- C4: for every sequence of square factors, every tensor `v` with a
conforming axis grouping (contiguous nonempty groups covering the axes
in order, with matching factor dimensions — passing `None` gives one
group per axis), and every uniform-or-per-factor transpose assignment,
the sequential one-factor-at-a-time contraction returned by
`kronecker_product_axis_mul_v` equals the naive reference that
materializes `kron(*factors)` (with flags applied), multiplies it by the
row-major vectorization of `v` and reshapes back. -/
theorem C4_kron_axis_mul_v_eq_naive (factors : List SqMat) (v : Tensor)
    (ago : Option (List (List ℕ))) (groups : List (List ℕ))
    (transpose : Bool ⊕ List Bool) (ts : List Bool)
    (hago : groups = ago.getD ((List.range v.shape.length).map fun i => [i]))
    (hg : groups.flatten = List.range v.shape.length)
    (hne : ∀ g ∈ groups, g ≠ [])
    (hlen : factors.length = groups.length)
    (ht : resolveTranspose transpose factors.length = .ok ts)
    (hconf : ∀ p ∈ List.zip groups factors, p.2.dim = foldedSize v.shape p.1) :
    ∃ t : Tensor, kronecker_product_axis_mul_v factors v ago transpose = .ok t
      ∧ t.shape = (naive_kron_mul_v factors ts v).shape
      ∧ ∀ i < v.shape.prod,
          t.data i = (naive_kron_mul_v factors ts v).data i := by
  refine ⟨⟨v.shape, applySteps v.shape groups factors ts v.data⟩,
    kron_mul_v_ok factors v ago groups transpose ts hago hg hne hlen ht hconf,
    rfl, ?_⟩
  intro i hi
  have hflat0 : groups.flatten = List.range' 0 (v.shape.length - 0) := by
    rw [Nat.sub_zero, ← List.range_eq_range']
    exact hg
  have hts_len : ts.length = groups.length := by
    rw [resolveTranspose_length ht, hlen]
  have happly := applySteps_eq v.shape groups factors ts 0 v.data hflat0 hne
    hlen hts_len hconf i (by simpa using hi)
  have hK : (kronList (appliedFactors factors ts)).dim = v.shape.prod := by
    rw [kronList_dim, appliedFactors_map_dim factors ts
      (by rw [hts_len, hlen])]
    have := applied_dims_prod v.shape groups factors 0 hflat0 hne hlen hconf
    simpa using this
  show applySteps v.shape groups factors ts v.data i = _
  rw [happly]
  exact mulVec_congr (kron_idMat_one_left (kronList (appliedFactors factors ts)))
    v.data i (by show i < 1 * (kronList (appliedFactors factors ts)).dim
                 rw [Nat.one_mul, hK]
                 exact hi)

/-- Witness for C4: one 2×2 all-ones factor applied to the vector
`(0, 1)` with default axis groups and a uniform transpose flag. -/
theorem C4_witness :
    (([[0]] : List (List ℕ))
        = (none : Option (List (List ℕ))).getD
            ((List.range (Tensor.mk [2] fun i => (i : ℝ)).shape.length).map
              fun i => [i])) ∧
    (([[0]] : List (List ℕ)).flatten
        = List.range (Tensor.mk [2] fun i => (i : ℝ)).shape.length) ∧
    (∀ g ∈ ([[0]] : List (List ℕ)), g ≠ []) ∧
    (([⟨2, fun _ _ => (1 : ℝ)⟩] : List SqMat).length
        = ([[0]] : List (List ℕ)).length) ∧
    (resolveTranspose (Sum.inl false)
        ([⟨2, fun _ _ => (1 : ℝ)⟩] : List SqMat).length = .ok [false]) ∧
    (∀ p ∈ List.zip ([[0]] : List (List ℕ)) ([⟨2, fun _ _ => (1 : ℝ)⟩] : List SqMat),
        p.2.dim = foldedSize (Tensor.mk [2] fun i => (i : ℝ)).shape p.1) ∧
    ∃ t : Tensor,
      kronecker_product_axis_mul_v [⟨2, fun _ _ => (1 : ℝ)⟩]
          (Tensor.mk [2] fun i => (i : ℝ)) none (Sum.inl false) = .ok t
        ∧ t.shape = (naive_kron_mul_v [⟨2, fun _ _ => (1 : ℝ)⟩] [false]
            (Tensor.mk [2] fun i => (i : ℝ))).shape
        ∧ ∀ i < (Tensor.mk [2] fun i => (i : ℝ)).shape.prod,
            t.data i = (naive_kron_mul_v [⟨2, fun _ _ => (1 : ℝ)⟩] [false]
              (Tensor.mk [2] fun i => (i : ℝ))).data i :=
  ⟨rfl, rfl, by decide, rfl, rfl, by decide,
    C4_kron_axis_mul_v_eq_naive [⟨2, fun _ _ => (1 : ℝ)⟩]
      (Tensor.mk [2] fun i => (i : ℝ)) none [[0]] (Sum.inl false) [false]
      rfl rfl (by decide) rfl rfl (by decide)⟩

/-- The shape-mismatch error of `kronecker_eigen_basis_axis_mul_v`. -/
def eigen_shape_mismatch_msg : String :=
  "The eigenvalues array should have the same shape as the projection of `v` onto `kron(*factors)`."

/-- Source `kronecker_eigen_basis_axis_mul_v`: project `v` onto the
eigenbasis (all factors transposed), validate the eigenvalues' shape
against the projection, scale elementwise, and project back. -/
noncomputable def kronecker_eigen_basis_axis_mul_v (q_factors : List SqMat)
    (eigenvalues : Tensor) (v : Tensor)
    (axis_groups : Option (List (List ℕ))) : Except String Tensor :=
  match kronecker_product_axis_mul_v q_factors v axis_groups (.inl true) with
  | .error e => .error e
  | .ok q_proj_v =>
    if eigenvalues.shape ≠ q_proj_v.shape then .error eigen_shape_mismatch_msg
    else
      kronecker_product_axis_mul_v q_factors
        ⟨q_proj_v.shape, fun i => eigenvalues.data i * q_proj_v.data i⟩
        axis_groups (.inl false)

/-- The value of `kronecker_product_axis_mul_v(q_factors, v, groups,
transpose=True)` on conforming inputs. -/
noncomputable def q_projection (q_factors : List SqMat) (v : Tensor)
    (groups : List (List ℕ)) : Tensor :=
  ⟨v.shape, applySteps v.shape groups q_factors
    (List.replicate q_factors.length true) v.data⟩

/-- C7: on conforming inputs, `kronecker_eigen_basis_axis_mul_v` raises
the shape-mismatch error iff the shape of
`kronecker_product_axis_mul_v(q_factors, v, axis_groups, transpose=True)`
differs from the eigenvalues' shape; otherwise it returns the
back-projection of the elementwise eigenvalue-scaled projection —
without requiring `eigenvalues` to be an outer/Kronecker product of
per-factor eigenvalues (any matching-shape tensor is accepted). -/
theorem C7_eigen_basis_mul_v (q_factors : List SqMat)
    (eigenvalues v : Tensor) (ago : Option (List (List ℕ)))
    (groups : List (List ℕ))
    (hago : groups = ago.getD ((List.range v.shape.length).map fun i => [i]))
    (hg : groups.flatten = List.range v.shape.length)
    (hne : ∀ g ∈ groups, g ≠ [])
    (hlen : q_factors.length = groups.length)
    (hconf : ∀ p ∈ List.zip groups q_factors,
      p.2.dim = foldedSize v.shape p.1) :
    kronecker_product_axis_mul_v q_factors v ago (.inl true)
        = .ok (q_projection q_factors v groups) ∧
    ((kronecker_eigen_basis_axis_mul_v q_factors eigenvalues v ago
        = .error eigen_shape_mismatch_msg)
      ↔ eigenvalues.shape ≠ (q_projection q_factors v groups).shape) ∧
    (eigenvalues.shape = (q_projection q_factors v groups).shape →
      kronecker_eigen_basis_axis_mul_v q_factors eigenvalues v ago
        = kronecker_product_axis_mul_v q_factors
            ⟨(q_projection q_factors v groups).shape,
              fun i => eigenvalues.data i
                * (q_projection q_factors v groups).data i⟩
            ago (.inl false)) := by
  have hok1 : kronecker_product_axis_mul_v q_factors v ago (.inl true)
      = .ok (q_projection q_factors v groups) :=
    kron_mul_v_ok q_factors v ago groups (.inl true)
      (List.replicate q_factors.length true) hago hg hne hlen rfl hconf
  have hok2 : kronecker_product_axis_mul_v q_factors
      ⟨(q_projection q_factors v groups).shape,
        fun i => eigenvalues.data i * (q_projection q_factors v groups).data i⟩
      ago (.inl false)
      = .ok ⟨v.shape, applySteps v.shape groups q_factors
          (List.replicate q_factors.length false)
          (fun i => eigenvalues.data i
            * (q_projection q_factors v groups).data i)⟩ :=
    kron_mul_v_ok q_factors
      ⟨(q_projection q_factors v groups).shape,
        fun i => eigenvalues.data i * (q_projection q_factors v groups).data i⟩
      ago groups (.inl false) (List.replicate q_factors.length false)
      hago hg hne hlen rfl hconf
  refine ⟨hok1, ⟨?_, ?_⟩, ?_⟩
  · intro herr hshape
    unfold kronecker_eigen_basis_axis_mul_v at herr
    rw [hok1] at herr
    simp only at herr
    rw [if_neg (not_not_intro hshape), hok2] at herr
    cases herr
  · intro hne'
    unfold kronecker_eigen_basis_axis_mul_v
    rw [hok1]
    simp only
    rw [if_pos hne']
  · intro hshape
    unfold kronecker_eigen_basis_axis_mul_v
    rw [hok1]
    simp only
    rw [if_neg (not_not_intro hshape)]

/-- Witness for C7 at a 2×2 all-ones factor, `v = (0, 1)` and matching
eigenvalues `(2, 2)`. -/
theorem C7_witness :
    (([[0]] : List (List ℕ))
        = (none : Option (List (List ℕ))).getD
            ((List.range (Tensor.mk [2] fun i => (i : ℝ)).shape.length).map
              fun i => [i])) ∧
    (([[0]] : List (List ℕ)).flatten
        = List.range (Tensor.mk [2] fun i => (i : ℝ)).shape.length) ∧
    (∀ g ∈ ([[0]] : List (List ℕ)), g ≠ []) ∧
    (([⟨2, fun _ _ => (1 : ℝ)⟩] : List SqMat).length
        = ([[0]] : List (List ℕ)).length) ∧
    (∀ p ∈ List.zip ([[0]] : List (List ℕ))
        ([⟨2, fun _ _ => (1 : ℝ)⟩] : List SqMat),
      p.2.dim = foldedSize (Tensor.mk [2] fun i => (i : ℝ)).shape p.1) ∧
    (kronecker_product_axis_mul_v [⟨2, fun _ _ => (1 : ℝ)⟩]
          (Tensor.mk [2] fun i => (i : ℝ)) none (.inl true)
        = .ok (q_projection [⟨2, fun _ _ => (1 : ℝ)⟩]
            (Tensor.mk [2] fun i => (i : ℝ)) [[0]]) ∧
      ((kronecker_eigen_basis_axis_mul_v [⟨2, fun _ _ => (1 : ℝ)⟩]
          (Tensor.mk [2] fun _ => (2 : ℝ)) (Tensor.mk [2] fun i => (i : ℝ)) none
          = .error eigen_shape_mismatch_msg)
        ↔ (Tensor.mk [2] fun _ => (2 : ℝ)).shape
            ≠ (q_projection [⟨2, fun _ _ => (1 : ℝ)⟩]
                (Tensor.mk [2] fun i => (i : ℝ)) [[0]]).shape) ∧
      ((Tensor.mk [2] fun _ => (2 : ℝ)).shape
          = (q_projection [⟨2, fun _ _ => (1 : ℝ)⟩]
              (Tensor.mk [2] fun i => (i : ℝ)) [[0]]).shape →
        kronecker_eigen_basis_axis_mul_v [⟨2, fun _ _ => (1 : ℝ)⟩]
            (Tensor.mk [2] fun _ => (2 : ℝ)) (Tensor.mk [2] fun i => (i : ℝ)) none
          = kronecker_product_axis_mul_v [⟨2, fun _ _ => (1 : ℝ)⟩]
              ⟨(q_projection [⟨2, fun _ _ => (1 : ℝ)⟩]
                  (Tensor.mk [2] fun i => (i : ℝ)) [[0]]).shape,
                fun i => (Tensor.mk [2] fun _ => (2 : ℝ)).data i
                  * (q_projection [⟨2, fun _ _ => (1 : ℝ)⟩]
                      (Tensor.mk [2] fun i => (i : ℝ)) [[0]]).data i⟩
              none (.inl false))) :=
  ⟨rfl, rfl, by decide, rfl, by decide,
    C7_eigen_basis_mul_v [⟨2, fun _ _ => (1 : ℝ)⟩]
      (Tensor.mk [2] fun _ => (2 : ℝ)) (Tensor.mk [2] fun i => (i : ℝ))
      none [[0]] rfl rfl (by decide) rfl (by decide)⟩

end KfacMath
